import Mathlib

/-! Multibrot renderer (`multibrot/multibrot.c`): embedding and verification.

The C program renders frames of the multibrot set `z ← z^power + c` with one
coordinator process (`master`) and `workers - 1` worker processes (`slave`).
This file embeds the functions of `multibrot.c` in Lean and proves properties
of the embedding.

Conventions.
* C `int` values that are never negative in the program (loop counters, ranks,
  sizes, array indices) are natural numbers; every value stays far below `2^31`.
* Heap buffers are total maps from cell index to content; the content a buffer
  has right after `malloc` is an arbitrary map given as an argument.
* A computation that leaves defined behaviour (division by zero, a read outside
  an array, an out-of-range conversion) yields `none`.
-/

namespace Multibrot

/-! ## Constants (`#define`s) and the `Color` struct -/

/-- Frame width: `#define X 1920`. -/
def X : Nat := 1920

/-- Frame height: `#define Y 1080`. -/
def Y : Nat := 1080

/-- Iteration ceiling: `#define MAX_ITER 8000`. -/
def MAX_ITER : Nat := 8000

/-- The struct `Color`: the three `unsigned char` channels, as numbers (below 256,
see `Color.wf`). -/
structure Color where
  r : Nat
  g : Nat
  b : Nat
deriving DecidableEq, Repr

/-! ## Band distribution: `slave` and the copy loop of `master` -/

/-- Band height `int size = Y/(workers-1)`, computed alike by `master` (line 87)
and `slave` (line 121); undefined for a zero divisor. -/
def band_size (workers : Nat) : Option Nat :=
  if workers - 1 = 0 then none else some (Y / (workers - 1))

/-- One assignment `buf[idx] = val` of the worker's fill loop. -/
structure BufStore (α : Type) where
  idx : Nat
  val : α

/-- Effect of one `buf[idx] = val` on the buffer. -/
def BufStore.apply {α : Type} (buf : Nat → α) (s : BufStore α) : Nat → α :=
  fun k => if k = s.idx then s.val else buf k

/-- The assignments executed by the loop nest of `slave` (lines 124-129), in
execution order: `for y < size, for x < X: buf[x*size + y] =
mandelbrot(x, (rank-1)*size + y, palette, power)`. The pixel function
`kernel x row` stands for `mandelbrot(x, row, palette, power)`. -/
def slave_stores {α : Type} (kernel : Nat → Nat → α) (size rank : Nat) : List (BufStore α) :=
  (List.range size).flatMap fun y =>
    (List.range X).map fun x =>
      { idx := x * size + y, val := kernel x ((rank - 1) * size + y) }

/-- The worker `slave(workers, rank, palette)`: the content of `buf` when it is
sent. `buf0` is the content of the fresh allocation. -/
def slave {α : Type} (kernel : Nat → Nat → α) (workers rank : Nat) (buf0 : Nat → α) :
    Option (Nat → α) :=
  (band_size workers).map fun size =>
    (slave_stores kernel size rank).foldl BufStore.apply buf0

/-- Transfer of `n` cells by `MPI_Send`/`MPI_Recv`: the first `n` cells of the
receive buffer take the sender's content, the others keep theirs. -/
def mpi_recv {α : Type} (n : Nat) (sent recv : Nat → α) : Nat → α :=
  fun k => if k < n then sent k else recv k

/-- One iteration of the copy loop of `master` (lines 94-98): the pixel read
from `recv[idx]` is stored into `colors[row][col]`; `source` is
`status.MPI_SOURCE - 1`. -/
structure Store (α : Type) where
  row : Nat
  col : Nat
  val : α
  source : Nat
  idx : Nat

/-- Effect of `colors[row][col] = val` on the frame buffer. -/
def Store.apply {α : Type} (colors : Nat → Nat → α) (s : Store α) : Nat → Nat → α :=
  fun i y => if i = s.row ∧ y = s.col then s.val else colors i y

/-- The stores of the copy loop of `master` for one received band (lines 92-100),
in execution order: `for x < size, for y < X: c = recv[y*size+x];
i = source*size + x; colors[i][y] = c`. -/
def band_stores {α : Type} (size source : Nat) (recv : Nat → α) : List (Store α) :=
  (List.range size).flatMap fun x =>
    (List.range X).map fun y =>
      { row := source * size + x, col := y, val := recv (y * size + x),
        source := source, idx := y * size + x }

/-- State of the receive loop of `master`: the receive buffer, the frame buffer
and the stores into the frame buffer done so far. -/
structure Gather (α : Type) where
  recv : Nat → α
  colors : Nat → Nat → α
  log : List (Store α)

/-- One round of the receive loop of `master` (lines 90-100): a band arrives from
the process of rank `rank`, holding `sent`, and is copied into the frame. -/
def master_round {α : Type} (size : Nat) (st : Gather α) (rank : Nat) (sent : Nat → α) :
    Gather α :=
  let recv := mpi_recv (size * X) sent st.recv
  let stores := band_stores size (rank - 1) recv
  { recv := recv, colors := stores.foldl Store.apply st.colors, log := st.log ++ stores }

/-- The receive loop of `master` (lines 84-101) in a process group of `workers`
processes. `arrival` lists the ranks of the senders in the order in which
`MPI_Recv(..., MPI_ANY_SOURCE, ...)` delivers their bands; each worker runs
`slave` on the allocation `bufs0 rank`. `recv0` and `colors0` are the contents of
the fresh allocations of `master`. -/
def master_gather {α : Type} (kernel : Nat → Nat → α) (workers : Nat) (arrival : List Nat)
    (bufs0 : Nat → Nat → α) (recv0 : Nat → α) (colors0 : Nat → Nat → α) :
    Option (Gather α) :=
  (band_size workers).bind fun size =>
    arrival.foldlM
      (fun st rank =>
        (slave kernel workers rank (bufs0 rank)).map fun sent => master_round size st rank sent)
      { recv := recv0, colors := colors0, log := [] }

/-- Test used to select the stores that target the frame cell `(i, y)`. -/
def Store.hits {α : Type} (i y : Nat) (s : Store α) : Bool :=
  decide (s.row = i ∧ s.col = y)

/-- Test used to select the assignments that target the buffer cell `k`. -/
def BufStore.hits {α : Type} (k : Nat) (s : BufStore α) : Bool :=
  decide (s.idx = k)

/-- All stores into the frame buffer over the receive loop, for band height
`size`: the stores of each received band, in arrival order. -/
def gather_log {α : Type} (kernel : Nat → Nat → α) (size : Nat) (arrival : List Nat)
    (bufs0 : Nat → Nat → α) : List (Store α) :=
  arrival.flatMap fun rank =>
    band_stores size (rank - 1)
      ((slave_stores kernel size rank).foldl BufStore.apply (bufs0 rank))

/-! ## Floating-point arithmetic

A finite `double` or `float` value is the rational number it denotes. The basic
operations of IEEE 754 return the exact result rounded to the nearest value of
the format, ties to even; `rnd 53` is that rounding for `double` and `rnd 24`
for `float`. The exponent range is not bounded: overflow, underflow and the
special values are outside the model, and an operation that would produce one
from finite operands (division by zero, logarithm of a non-positive number)
yields `none`. -/

/-- Number of halvings that bring `n` below 2, that is `floor (log2 n)` for
`1 ≤ n`; the first argument bounds the recursion. -/
def log2_aux : Nat → Nat → Nat
  | 0, _ => 0
  | fuel + 1, n => if n < 2 then 0 else log2_aux fuel (n / 2) + 1

/-- Binary exponent of a positive rational: `floor (log2 q)`. -/
def ilog2 (q : ℚ) : ℤ :=
  let e0 : ℤ := (log2_aux q.num.natAbs q.num.natAbs : ℤ) - (log2_aux q.den q.den : ℤ)
  if (2 : ℚ) ^ e0 ≤ q then e0 else e0 - 1

/-- Nearest integer, ties to the even one. -/
def round_half_even (q : ℚ) : ℤ :=
  let f := ⌊q⌋
  let r := q - f
  if r < 1 / 2 then f else if 1 / 2 < r then f + 1 else if f % 2 = 0 then f else f + 1

/-- Rounding to the nearest binary floating-point number with a significand of
`p` bits, ties to even. -/
def rnd (p : ℕ) (q : ℚ) : ℚ :=
  if q = 0 then 0 else
    let s := (2 : ℚ) ^ (ilog2 |q| - ((p : ℤ) - 1))
    (round_half_even (q / s) : ℚ) * s

/-- The numbers of the format with `p` significand bits: `k * 2^e` with
`|k| < 2^p`. -/
def Representable (p : ℕ) (r : ℚ) : Prop :=
  ∃ k e : ℤ, |k| < 2 ^ p ∧ r = k * (2 : ℚ) ^ e

/-- Addition of `double`s. -/
def dadd (a b : ℚ) : ℚ := rnd 53 (a + b)

/-- Subtraction of `double`s. -/
def dsub (a b : ℚ) : ℚ := rnd 53 (a - b)

/-- Multiplication of `double`s. -/
def dmul (a b : ℚ) : ℚ := rnd 53 (a * b)

/-- Division of `double`s; no finite result for a zero divisor. -/
def ddiv (a b : ℚ) : Option ℚ := if b = 0 then none else some (rnd 53 (a / b))

/-- Truncation toward zero. -/
def trunc (q : ℚ) : ℤ := if 0 ≤ q then ⌊q⌋ else ⌈q⌉

/-- Conversion `(int)q` of a `double`: truncation toward zero, undefined when the
result is not a 32-bit `int`. -/
def to_int (q : ℚ) : Option ℤ :=
  if -(2 : ℤ) ^ 31 ≤ trunc q ∧ trunc q < (2 : ℤ) ^ 31 then some (trunc q) else none

/-- Conversion of a `double` to `unsigned char`: truncation toward zero,
undefined when the result is not in `0..255`. -/
def double_to_uchar (q : ℚ) : Option Nat :=
  if 0 ≤ trunc q ∧ trunc q < 256 then some (trunc q).toNat else none

/-- Conversion of an `int` to `unsigned char`: reduction modulo 256. -/
def int_to_uchar (n : ℤ) : Nat := (n % 256).toNat

/-- The functions of the C mathematical library used by the program, on finite
arguments: `log` on positive `double`s, `cabsf` and `cpowf` on `float complex`
values (pairs of real and imaginary part). -/
structure Libm where
  log : ℚ → ℚ
  cabsf : ℚ × ℚ → ℚ
  cpowf : ℚ × ℚ → ℚ × ℚ → ℚ × ℚ

/-- Call `log(x)`: a finite result only for a positive argument. -/
def dlog (L : Libm) (x : ℚ) : Option ℚ := if 0 < x then some (L.log x) else none

/-- Sum of two `float complex` values. -/
def cadd (a b : ℚ × ℚ) : ℚ × ℚ := (rnd 24 (a.1 + b.1), rnd 24 (a.2 + b.2))

/-! ## Constants of the viewport and of the sweep -/

/-- Real-axis upper bound: `#define R_MAX 1.5`. -/
def R_MAX : ℚ := 3 / 2

/-- Real-axis lower bound: `#define R_MIN -2`. -/
def R_MIN : ℚ := -2

/-- Imaginary-axis upper bound: `#define I_MAX 1.0`. -/
def I_MAX : ℚ := 1

/-- Imaginary-axis lower bound: `#define I_MIN -I_MAX`. -/
def I_MIN : ℚ := -I_MAX

/-- First exponent of the sweep: `#define MIN_POWER 1`. -/
def MIN_POWER : ℚ := 1

/-- Last exponent of the sweep: `#define MAX_POWER 10`. -/
def MAX_POWER : ℚ := 10

/-- Exponent step `#define dP 0.01`: the `double` nearest to 1/100. -/
def dP : ℚ := rnd 53 (1 / 100)

/-! ## `lerp`, `max` and the kernel `mandelbrot` -/

/-- The function `lerp`: `(1 - t) * v0 + t * v1`. -/
def lerp (v0 v1 t : ℚ) : ℚ := dadd (dmul (dsub 1 t) v0) (dmul t v1)

/-- The function `max`: `a > b ? a : b`. -/
def max (a b : ℚ) : ℚ := if a > b then a else b

/-- Lines 40, 41 and 45 of `mandelbrot`: the `float complex` point `c` of a pixel. -/
def pixel_to_point (px py : ℤ) : Option (ℚ × ℚ) := do
  let sx ← ddiv (dsub R_MAX R_MIN) (dmul X 1)
  let sy ← ddiv (dsub I_MAX I_MIN) (dmul Y 1)
  let x0 := dadd R_MIN (dmul px sx)
  let y0 := dadd I_MIN (dmul py sy)
  pure (rnd 24 x0, rnd 24 y0)

/-- One pass through the body of the escape loop: `z = cpowf(z, power) + c`. -/
def escape_step (L : Libm) (power : ℚ) (c z : ℚ × ℚ) : ℚ × ℚ :=
  cadd (L.cpowf z (rnd 24 power, 0)) c

/-- The escape loop, lines 47-50:
`while(cabsf(z) <= 20 && i < MAX_ITER){ z = cpowf(z, power) + c; i++; }`,
run for at most `fuel + 1` evaluations of the condition. The result is the state
`(z, i)` on exit, or `none` if the loop has not exited by then. -/
def escape_loop (L : Libm) (power : ℚ) (c : ℚ × ℚ) : Nat → ℚ × ℚ → ℚ → Option ((ℚ × ℚ) × ℚ)
  | 0, z, i => if L.cabsf z ≤ 20 ∧ i < MAX_ITER then none else some (z, i)
  | fuel + 1, z, i =>
    if L.cabsf z ≤ 20 ∧ i < MAX_ITER then
      escape_loop L power c fuel (escape_step L power c z) (dadd i 1)
    else some (z, i)

/-- The second argument of `max` in line 55, `abs(power)`: `abs` is the integer
function of `stdlib.h`, so `power` is converted to `int` first. -/
def abs_power (power : ℚ) : Option ℤ :=
  (to_int power).bind fun t => if t = -(2 : ℤ) ^ 31 then none else some |t|

/-- The smoothing correction of lines 54-55:
`log_zn = log(cabsf(z)) / power;
 nu = log(log_zn / log(2.0))/log(max(2.0, abs(power)))`. -/
def smooth_nu (L : Libm) (z : ℚ × ℚ) (power : ℚ) : Option ℚ := do
  let l ← dlog L (L.cabsf z)
  let log_zn ← ddiv l power
  let l2 ← dlog L 2
  let q ← ddiv log_zn l2
  let a ← dlog L q
  let t ← abs_power power
  let b ← dlog L (max 2 t)
  ddiv a b

/-- Lines 53-57: the fractional count, `i + (1.0 - nu)` when the loop ended
before the ceiling and `i` otherwise. -/
def smooth (L : Libm) (z : ℚ × ℚ) (i power : ℚ) : Option ℚ :=
  if i < MAX_ITER then do
    let nu ← smooth_nu L z power
    pure (dadd i (dsub 1 nu))
  else pure i

/-- The palette indices read in lines 58-64: `(int)i`, and `(int)i` again if
`(int)i + 1 > MAX_ITER`, `(int)i + 1` otherwise. -/
def palette_indices (i : ℚ) : Option (ℤ × ℤ) :=
  (to_int i).map fun k => (k, if k + 1 > MAX_ITER then k else k + 1)

/-- Read of `palette[k]`; undefined outside the array. -/
def palette_read (palette : List Color) (k : ℤ) : Option Color :=
  if 0 ≤ k then palette[k.toNat]? else none

/-- One channel of the result, `(int)lerp(c1.r, c2.r, mod)` stored into an
`unsigned char`. -/
def shade_channel (v0 v1 : Nat) (mod : ℚ) : Option Nat :=
  (to_int (lerp v0 v1 mod)).map int_to_uchar

/-- Lines 58-71: lookup of the two palette entries and interpolation. -/
def shade (palette : List Color) (i : ℚ) : Option Color := do
  let idx ← palette_indices i
  let c1 ← palette_read palette idx.1
  let c2 ← palette_read palette idx.2
  let mod := dsub i idx.1
  let r ← shade_channel c1.r c2.r mod
  let g ← shade_channel c1.g c2.g mod
  let b ← shade_channel c1.b c2.b mod
  pure { r := r, g := g, b := b }

/-- The kernel `mandelbrot(px, py, palette, power)`. -/
def mandelbrot (L : Libm) (px py : ℤ) (palette : List Color) (power : ℚ) : Option Color := do
  let c ← pixel_to_point px py
  let zi ← escape_loop L power c MAX_ITER (0, 0) 0
  let i ← smooth L zi.1 zi.2 power
  shade palette i

/-! ## `make_palette` -/

/-- Lines 165-170 of `make_palette`: the ramp parameter `j` of entry `i < size`. -/
def ramp_j (L : Libm) (size i : ℤ) : Option ℚ :=
  if i = 0 then some 3 else do
    let a ← dlog L i
    let b ← dlog L (dsub size 1)
    let q ← ddiv a b
    pure (dmul 3 q)

/-- Body of the loop of `make_palette` for index `i` (lines 161-190); `none` when
the value stored in the entry is not defined. -/
def palette_entry (L : Libm) (size i : ℤ) : Option Color :=
  if i ≥ size then some { r := 0, g := 0, b := 0 } else do
    let j ← ramp_j L size i
    if j < 1 then do
      let g ← double_to_uchar (dmul 255 j)
      pure { r := 0, g := g, b := 0 }
    else if j < 2 then do
      let r ← double_to_uchar (dmul 255 (dsub j 1))
      pure { r := r, g := 255, b := 0 }
    else do
      let r ← double_to_uchar (dmul 255 (dsub j 2))
      pure { r := r, g := 255, b := 255 }

/-- The function `make_palette(size)`: the `size + 1` entries of the array it
returns, in order. -/
def make_palette (L : Libm) (size : Nat) : List (Option Color) :=
  (List.range (size + 1)).map fun i : Nat => palette_entry L (size : ℤ) (i : ℤ)

/-! ## Sweep, frame index and image file -/

/-- Value of the loop variable of `main` (line 145) at the start of round `k`:
`i = MIN_POWER`, then `i += dP` after every round. -/
def sweep : Nat → ℚ
  | 0 => MIN_POWER
  | k + 1 => dadd (sweep k) dP

/-- The frame index in lines 106 and 114: `(int)((power-MIN_POWER)/dP)`. -/
def frame_index (power : ℚ) : Option ℤ :=
  (ddiv (dsub power MIN_POWER) dP).bind to_int

/-- Frame index as the specification words it: the nearest integer to the same
quotient. -/
def spec_frame_index (power : ℚ) : Option ℤ :=
  (ddiv (dsub power MIN_POWER) dP).map round

/-- Bytes printed by `%d` for a non-negative value. -/
def fmt_d (n : Nat) : List Nat := (Nat.toDigits 10 n).map Char.toNat

/-- Bytes written by `fprintf(fout, "P6\n%d %d\n255\n", X, Y)` (line 108). -/
def ppm_header : List Nat :=
  [80, 54, 10] ++ fmt_d X ++ [32] ++ fmt_d Y ++ [10, 50, 53, 53, 10]

/-- Bytes written by the loop nest of lines 109-113: `fwrite(colors[y][x], 1, 3,
fout)` for `y < Y`, `x < X`. -/
def ppm_data (colors : Nat → Nat → Color) : List Nat :=
  (List.range Y).flatMap fun y =>
    (List.range X).flatMap fun x => [(colors y x).r, (colors y x).g, (colors y x).b]

/-- The byte stream `master` writes to the output file (lines 108-113). -/
def master_write (colors : Nat → Nat → Color) : List Nat :=
  ppm_header ++ ppm_data colors

/-! ## Assumptions on the mathematical library, and a sample library -/

/-- Properties of `log`, `cabsf` and `cpowf` assumed of the C library where a
proof needs them: `log` is monotone and lies between `1 - 1/x` and `x - 1`, as the
real logarithm does; `cabsf` of a real number is its absolute value, `cabsf` is
at least the absolute value of the real part and at most the sum of the absolute
values of both parts plus one; a power of zero with real part of the exponent at
least 1 is zero; the square computed by `cpowf` is within `1/512` of the exact
square on the unit box. -/
structure Libm.Lawful (L : Libm) : Prop where
  log_mono : ∀ a b : ℚ, 0 < a → a ≤ b → L.log a ≤ L.log b
  log_le : ∀ x : ℚ, 0 < x → L.log x ≤ x - 1
  le_log : ∀ x : ℚ, 0 < x → 1 - 1 / x ≤ L.log x
  cabsf_real : ∀ x : ℚ, L.cabsf (x, 0) = |x|
  re_le_cabsf : ∀ z : ℚ × ℚ, |z.1| ≤ L.cabsf z
  cabsf_le : ∀ z : ℚ × ℚ, L.cabsf z ≤ |z.1| + |z.2| + 1
  cpowf_zero : ∀ w : ℚ × ℚ, 1 ≤ w.1 → L.cpowf (0, 0) w = (0, 0)
  cpowf_two : ∀ z : ℚ × ℚ, |z.1| ≤ 1 → |z.2| ≤ 1 →
    |(L.cpowf z (2, 0)).1 - (z.1 * z.1 - z.2 * z.2)| ≤ 1 / 512
      ∧ |(L.cpowf z (2, 0)).2 - 2 * z.1 * z.2| ≤ 1 / 512

/-- Exact product of two complex numbers. -/
def cmul (a b : ℚ × ℚ) : ℚ × ℚ := (a.1 * b.1 - a.2 * b.2, a.1 * b.2 + a.2 * b.1)

/-- Exact power of a complex number with a natural exponent. -/
def cpow_nat (z : ℚ × ℚ) : Nat → ℚ × ℚ
  | 0 => (1, 0)
  | n + 1 => cmul (cpow_nat z n) z

/-- A sample library, computable and lawful: `log x` is the first term
`2(x-1)/(x+1)` of the series of the logarithm, `cabsf` is the larger of the
absolute values of the two parts, and `cpowf` is the exact power for the integer
part of the real part of the exponent. -/
def sampleLibm : Libm where
  log x := 2 * (x - 1) / (x + 1)
  cabsf z := max |z.1| |z.2|
  cpowf z w := cpow_nat z ⌊w.1⌋.toNat

/-- The channels of a `Color` are bytes. -/
def Color.wf (c : Color) : Prop := c.r < 256 ∧ c.g < 256 ∧ c.b < 256

/-- The correction `nu` as the specification words it: the base of the outer
logarithm is `max(2, |power|)` with the real absolute value of `power`. -/
def spec_smooth_nu (L : Libm) (z : ℚ × ℚ) (power : ℚ) : Option ℚ := do
  let l ← dlog L (L.cabsf z)
  let log_zn ← ddiv l power
  let l2 ← dlog L 2
  let q ← ddiv log_zn l2
  let a ← dlog L q
  let b ← dlog L (max 2 |power|)
  ddiv a b

/-- A palette of `MAX_ITER + 1` entries: white, then black. -/
def sample_palette : List Color :=
  List.replicate MAX_ITER { r := 255, g := 255, b := 255 } ++ [{ r := 0, g := 0, b := 0 }]

/-! ## Generic facts about loops that emit stores -/

theorem filter_flatMap_nil {ι β : Type} (p : β → Bool) (g : ι → List β) :
    ∀ l : List ι, (∀ x ∈ l, (g x).filter p = []) → (l.flatMap g).filter p = [] := by
  intro l
  induction l with
  | nil => intro _; rfl
  | cons a t ih =>
    intro h
    rw [List.flatMap_cons, List.filter_append, h a (List.mem_cons_self a t),
      ih (fun x hx => h x (List.mem_cons_of_mem a hx))]
    rfl

theorem filter_flatMap_unique {ι β : Type} (p : β → Bool) (g : ι → List β) (c : ι) :
    ∀ l : List ι, l.Nodup → c ∈ l → (∀ x ∈ l, x ≠ c → (g x).filter p = []) →
      (l.flatMap g).filter p = (g c).filter p := by
  intro l
  induction l with
  | nil => intro _ hc; cases hc
  | cons a t ih =>
    intro hnd hc h
    rw [List.nodup_cons] at hnd
    rw [List.flatMap_cons, List.filter_append]
    by_cases hac : a = c
    · subst hac
      rw [filter_flatMap_nil p g t, List.append_nil]
      intro x hx
      exact h x (List.mem_cons_of_mem a hx) (fun hxa => hnd.1 (hxa ▸ hx))
    · have hct : c ∈ t := by
        rcases List.mem_cons.mp hc with h1 | h1
        · exact absurd h1.symm hac
        · exact h1
      rw [h a (List.mem_cons_self a t) hac, List.nil_append]
      exact ih hnd.2 hct (fun x hx => h x (List.mem_cons_of_mem a hx))

theorem filter_map_range_unique {β : Type} (p : β → Bool) (f : Nat → β) (n c : Nat)
    (hc : c < n) (h : ∀ y, y < n → (p (f y) = true ↔ y = c)) :
    ((List.range n).map f).filter p = [f c] := by
  have hmap : (List.range n).map f = (List.range n).flatMap fun y => [f y] := by
    induction (List.range n) with
    | nil => rfl
    | cons a t ih => simp [List.flatMap_cons, ih]
  rw [hmap, filter_flatMap_unique p (fun y => [f y]) c (List.range n) (List.nodup_range n)
    (List.mem_range.mpr hc)]
  · have : p (f c) = true := (h c hc).mpr rfl
    simp [List.filter_cons, this]
  · intro x hx hne
    have hx' : x < n := List.mem_range.mp hx
    have : p (f x) = false := by
      cases hp : p (f x) with
      | false => rfl
      | true => exact absurd ((h x hx').mp hp) hne
    simp [List.filter_cons, this]

theorem filter_map_range_nil {β : Type} (p : β → Bool) (f : Nat → β) (n : Nat)
    (h : ∀ y, y < n → p (f y) = false) :
    ((List.range n).map f).filter p = [] := by
  rw [List.filter_eq_nil_iff]
  intro b hb
  rcases List.mem_map.mp hb with ⟨y, hy, rfl⟩
  simp [h y (List.mem_range.mp hy)]

/-! ## Memory after a list of stores -/

theorem foldl_store_untouched {α : Type} (i y : Nat) :
    ∀ (log : List (Store α)) (colors : Nat → Nat → α),
      log.filter (Store.hits i y) = [] → log.foldl Store.apply colors i y = colors i y := by
  intro log
  induction log with
  | nil => intro _ _; rfl
  | cons s t ih =>
    intro colors h
    rw [List.filter_cons] at h
    by_cases hs : Store.hits i y s = true
    · rw [if_pos hs] at h; cases h
    · rw [if_neg hs] at h
      rw [List.foldl_cons, ih _ h]
      have : ¬ (i = s.row ∧ y = s.col) := by
        intro hh
        exact hs (by simp [Store.hits, hh.1, hh.2])
      simp [Store.apply, this]

theorem foldl_store_single {α : Type} (i y : Nat) (s0 : Store α) :
    ∀ (log : List (Store α)) (colors : Nat → Nat → α),
      log.filter (Store.hits i y) = [s0] → log.foldl Store.apply colors i y = s0.val := by
  intro log
  induction log with
  | nil => intro _ h; cases h
  | cons s t ih =>
    intro colors h
    rw [List.filter_cons] at h
    by_cases hs : Store.hits i y s = true
    · rw [if_pos hs] at h
      have h1 : s = s0 := (List.cons.inj h).1
      have h2 : t.filter (Store.hits i y) = [] := (List.cons.inj h).2
      rw [List.foldl_cons, foldl_store_untouched i y t _ h2, ← h1]
      have : i = s.row ∧ y = s.col := by
        have := of_decide_eq_true hs
        exact ⟨this.1.symm, this.2.symm⟩
      simp [Store.apply, this]
    · rw [if_neg hs] at h
      rw [List.foldl_cons]
      exact ih _ h

theorem foldl_bufstore_untouched {α : Type} (k : Nat) :
    ∀ (log : List (BufStore α)) (buf : Nat → α),
      log.filter (BufStore.hits k) = [] → log.foldl BufStore.apply buf k = buf k := by
  intro log
  induction log with
  | nil => intro _ _; rfl
  | cons s t ih =>
    intro buf h
    rw [List.filter_cons] at h
    by_cases hs : BufStore.hits k s = true
    · rw [if_pos hs] at h; cases h
    · rw [if_neg hs] at h
      rw [List.foldl_cons, ih _ h]
      have : ¬ (k = s.idx) := by
        intro hh
        exact hs (by simp [BufStore.hits, hh])
      simp [BufStore.apply, this]

theorem foldl_bufstore_single {α : Type} (k : Nat) (s0 : BufStore α) :
    ∀ (log : List (BufStore α)) (buf : Nat → α),
      log.filter (BufStore.hits k) = [s0] → log.foldl BufStore.apply buf k = s0.val := by
  intro log
  induction log with
  | nil => intro _ h; cases h
  | cons s t ih =>
    intro buf h
    rw [List.filter_cons] at h
    by_cases hs : BufStore.hits k s = true
    · rw [if_pos hs] at h
      have h1 : s = s0 := (List.cons.inj h).1
      have h2 : t.filter (BufStore.hits k) = [] := (List.cons.inj h).2
      rw [List.foldl_cons, foldl_bufstore_untouched k t _ h2, ← h1]
      have : k = s.idx := (of_decide_eq_true hs).symm
      simp [BufStore.apply, this]
    · rw [if_neg hs] at h
      rw [List.foldl_cons]
      exact ih _ h

/-! ## Packing by `slave`, unpacking by `master` -/

/-- Column-major packing is injective on a band: `x*size + y` with `y < size`
determines `x` and `y`. -/
theorem pack_inj {size x y x' y' : Nat} (hy : y < size) (hy' : y' < size)
    (h : x * size + y = x' * size + y') : x = x' ∧ y = y' := by
  have hpos : 0 < size := Nat.lt_of_le_of_lt (Nat.zero_le y) hy
  have h1 : (x * size + y) / size = x := by
    rw [Nat.mul_comm, Nat.mul_add_div hpos, Nat.div_eq_of_lt hy, Nat.add_zero]
  have h2 : (x' * size + y') / size = x' := by
    rw [Nat.mul_comm, Nat.mul_add_div hpos, Nat.div_eq_of_lt hy', Nat.add_zero]
  have hx : x = x' := by rw [← h1, h, h2]
  subst hx
  exact ⟨rfl, Nat.add_left_cancel h⟩

/-- The cell `col*size + r` of the buffer a worker sends holds the pixel of column
`col` and of row `r` of its band. -/
theorem slave_buf_cell {α : Type} (kernel : Nat → Nat → α) (size rank : Nat) (buf0 : Nat → α)
    (col r : Nat) (hcol : col < X) (hr : r < size) :
    (slave_stores kernel size rank).foldl BufStore.apply buf0 (col * size + r)
      = kernel col ((rank - 1) * size + r) := by
  have hf : (slave_stores kernel size rank).filter (BufStore.hits (col * size + r))
      = [{ idx := col * size + r, val := kernel col ((rank - 1) * size + r) }] := by
    unfold slave_stores
    rw [filter_flatMap_unique _ _ r (List.range size) (List.nodup_range size)
      (List.mem_range.mpr hr)]
    · refine filter_map_range_unique _ _ X col hcol ?_
      intro x _
      simp only [BufStore.hits, decide_eq_true_eq]
      constructor
      · intro h; exact (pack_inj hr hr h).1
      · intro h; rw [h]
    · intro y hy hne
      refine filter_map_range_nil _ _ X ?_
      intro x _
      simp only [BufStore.hits, decide_eq_false_iff_not]
      intro h
      exact hne (pack_inj (List.mem_range.mp hy) hr h).2
  rw [foldl_bufstore_single _ _ _ _ hf]

/-- The copy loop reads only the cells that the transfer filled. -/
theorem band_stores_recv {α : Type} (size source : Nat) (sent prev : Nat → α) :
    band_stores size source (mpi_recv (size * X) sent prev) = band_stores size source sent := by
  unfold band_stores
  refine List.flatMap_congr ?_
  intro x hx
  refine List.map_congr_left ?_
  intro y hy
  have hx' : x < size := List.mem_range.mp hx
  have hy' : y < X := List.mem_range.mp hy
  have hlt : y * size + x < size * X := by
    calc y * size + x < y * size + size := Nat.add_lt_add_left hx' _
      _ = (y + 1) * size := by ring
      _ ≤ X * size := Nat.mul_le_mul_right _ hy'
      _ = size * X := Nat.mul_comm _ _
  simp [mpi_recv, hlt]

theorem foldlM_gather {α : Type} (kernel : Nat → Nat → α) (workers size : Nat)
    (hsize : band_size workers = some size) (bufs0 : Nat → Nat → α) :
    ∀ (arrival : List Nat) (st : Gather α),
      ∃ st' : Gather α,
        arrival.foldlM
          (fun st rank =>
            (slave kernel workers rank (bufs0 rank)).map fun sent =>
              master_round size st rank sent) st = some st'
        ∧ st'.log = st.log ++ gather_log kernel size arrival bufs0
        ∧ st'.colors = (gather_log kernel size arrival bufs0).foldl Store.apply st.colors := by
  intro arrival
  induction arrival with
  | nil =>
    intro st
    exact ⟨st, rfl, by simp [gather_log], by simp [gather_log]⟩
  | cons rank t ih =>
    intro st
    have hsl : slave kernel workers rank (bufs0 rank)
        = some ((slave_stores kernel size rank).foldl BufStore.apply (bufs0 rank)) := by
      simp [slave, hsize]
    obtain ⟨st', h1, h2, h3⟩ := ih (master_round size st rank
      ((slave_stores kernel size rank).foldl BufStore.apply (bufs0 rank)))
    refine ⟨st', ?_, ?_, ?_⟩
    · rw [List.foldlM_cons, hsl]
      exact h1
    · rw [h2]
      simp [master_round, gather_log, band_stores_recv, List.flatMap_cons, List.append_assoc]
    · rw [h3]
      simp [master_round, gather_log, band_stores_recv, List.flatMap_cons, List.foldl_append]

/-- The receive loop of `master` completes whenever the band height is defined,
and its result is determined by the list of stores `gather_log`. -/
theorem master_gather_eq {α : Type} (kernel : Nat → Nat → α) (workers size : Nat)
    (hsize : band_size workers = some size) (arrival : List Nat)
    (bufs0 : Nat → Nat → α) (recv0 : Nat → α) (colors0 : Nat → Nat → α) :
    ∃ g : Gather α, master_gather kernel workers arrival bufs0 recv0 colors0 = some g
      ∧ g.log = gather_log kernel size arrival bufs0
      ∧ g.colors = (gather_log kernel size arrival bufs0).foldl Store.apply colors0 := by
  obtain ⟨st', h1, h2, h3⟩ := foldlM_gather kernel workers size hsize bufs0 arrival
    { recv := recv0, colors := colors0, log := [] }
  refine ⟨st', ?_, ?_, h3⟩
  · simp only [master_gather, hsize, Option.some_bind]
    exact h1
  · simpa using h2

/-- Row `source*size + x` with `x < size` determines the band and the row in it. -/
theorem row_split {size source x i : Nat} (hx : x < size) :
    source * size + x = i ↔ source = i / size ∧ x = i % size := by
  have hpos : 0 < size := Nat.lt_of_le_of_lt (Nat.zero_le x) hx
  constructor
  · intro h
    have hi : i = (i / size) * size + i % size := by
      rw [Nat.mul_comm]; exact (Nat.div_add_mod i size).symm
    exact pack_inj hx (Nat.mod_lt i hpos) (h.trans hi)
  · rintro ⟨h1, h2⟩
    rw [h1, h2, Nat.mul_comm]
    exact Nat.div_add_mod i size

/-- Stores of one band that target the frame cell `(i, j)`: one if the band is
band `i / size`, none otherwise. -/
theorem band_stores_hits {α : Type} (size source : Nat) (recv : Nat → α) (i j : Nat)
    (hsz : 0 < size) (hj : j < X) :
    (band_stores size source recv).filter (Store.hits i j)
      = if source = i / size then
          [{ row := i, col := j, val := recv (j * size + i % size), source := i / size,
             idx := j * size + i % size }]
        else [] := by
  unfold band_stores
  by_cases hs : source = i / size
  · rw [if_pos hs]
    rw [filter_flatMap_unique _ _ (i % size) (List.range size) (List.nodup_range size)
      (List.mem_range.mpr (Nat.mod_lt i hsz))]
    · have hrow : source * size + i % size = i := (row_split (Nat.mod_lt i hsz)).mpr ⟨hs, rfl⟩
      rw [filter_map_range_unique _ _ X j hj]
      · rw [hrow, hs]
      · intro y _
        simp [Store.hits, hrow]
    · intro x hx hne
      refine filter_map_range_nil _ _ X ?_
      intro y _
      simp only [Store.hits, decide_eq_false_iff_not]
      rintro ⟨h, _⟩
      exact hne ((row_split (List.mem_range.mp hx)).mp h).2
  · rw [if_neg hs]
    refine filter_flatMap_nil _ _ _ ?_
    intro x hx
    refine filter_map_range_nil _ _ X ?_
    intro y _
    simp only [Store.hits, decide_eq_false_iff_not]
    rintro ⟨h, _⟩
    exact hs ((row_split (List.mem_range.mp hx)).mp h).1

/-- Over the whole receive loop, whatever the arrival order, exactly one store
targets a frame cell in the rows covered by the bands, and it carries the pixel
that worker `i / size` computed for that cell. -/
theorem gather_log_hits {α : Type} (kernel : Nat → Nat → α) (W size : Nat)
    (arrival : List Nat) (hperm : arrival.Perm (List.range' 1 W))
    (bufs0 : Nat → Nat → α) (i j : Nat) (hi : i < W * size) (hj : j < X) :
    (gather_log kernel size arrival bufs0).filter (Store.hits i j)
      = [{ row := i, col := j, val := kernel j i, source := i / size,
           idx := j * size + i % size }] := by
  have hsz : 0 < size := by
    rcases Nat.eq_zero_or_pos size with h | h
    · rw [h, Nat.mul_zero] at hi; exact absurd hi (Nat.not_lt_zero i)
    · exact h
  have hdiv : i / size < W := by
    rw [Nat.div_lt_iff_lt_mul hsz]; exact hi
  have hnd : arrival.Nodup := hperm.nodup_iff.mpr (List.nodup_range' 1 W)
  have hmem : i / size + 1 ∈ arrival := by
    rw [hperm.mem_iff, List.mem_range'_1]
    exact ⟨Nat.le_add_left 1 _, by rw [Nat.add_comm]; exact Nat.add_lt_add_left hdiv 1⟩
  unfold gather_log
  rw [filter_flatMap_unique _ _ (i / size + 1) arrival hnd hmem]
  · rw [band_stores_hits _ _ _ i j hsz hj, if_pos (Nat.add_sub_cancel (i / size) 1)]
    rw [slave_buf_cell kernel size (i / size + 1) (bufs0 (i / size + 1)) j (i % size) hj
      (Nat.mod_lt i hsz)]
    have hrow : (i / size + 1 - 1) * size + i % size = i :=
      (row_split (Nat.mod_lt i hsz)).mpr ⟨Nat.add_sub_cancel (i / size) 1, rfl⟩
    rw [hrow]
  · intro rank hrank hne
    have hr1 : 1 ≤ rank := by
      have := (hperm.mem_iff.mp hrank)
      rw [List.mem_range'_1] at this
      exact this.1
    have hne' : rank - 1 ≠ i / size := by
      intro h
      apply hne
      rw [← h]
      exact (Nat.sub_add_cancel hr1).symm
    rw [band_stores_hits _ _ _ i j hsz hj, if_neg hne']

/-- No store of the receive loop targets a row at or below the last band. -/
theorem gather_log_miss {α : Type} (kernel : Nat → Nat → α) (W size : Nat)
    (arrival : List Nat) (hperm : arrival.Perm (List.range' 1 W))
    (bufs0 : Nat → Nat → α) (i j : Nat) (hi : W * size ≤ i) :
    (gather_log kernel size arrival bufs0).filter (Store.hits i j) = [] := by
  unfold gather_log
  refine filter_flatMap_nil _ _ _ ?_
  intro rank hrank
  have hr : 1 ≤ rank ∧ rank < 1 + W := by
    have := (hperm.mem_iff.mp hrank)
    rw [List.mem_range'_1] at this
    exact this
  unfold band_stores
  refine filter_flatMap_nil _ _ _ ?_
  intro x hx
  refine filter_map_range_nil _ _ X ?_
  intro y _
  simp only [Store.hits, decide_eq_false_iff_not]
  rintro ⟨h, _⟩
  have hx' : x < size := List.mem_range.mp hx
  have h1 : (rank - 1) * size + x < W * size := by
    calc (rank - 1) * size + x < (rank - 1) * size + size := Nat.add_lt_add_left hx' _
      _ = (rank - 1 + 1) * size := by ring
      _ ≤ W * size := Nat.mul_le_mul_right _ (by omega)
  omega


/-! ## Facts about the rounding `rnd` -/

theorem log2_aux_le : ∀ fuel n : Nat, 1 ≤ n → 2 ^ log2_aux fuel n ≤ n := by
  intro fuel
  induction fuel with
  | zero => intro n hn; simp [log2_aux]; omega
  | succ f ih =>
    intro n hn
    unfold log2_aux
    by_cases h2 : n < 2
    · simpa [h2] using hn
    · rw [if_neg h2]
      have h1 : 1 ≤ n / 2 := by omega
      have := ih (n / 2) h1
      rw [pow_succ]
      omega

theorem lt_log2_aux : ∀ fuel n : Nat, n ≤ fuel → n < 2 ^ (log2_aux fuel n + 1) := by
  intro fuel
  induction fuel with
  | zero => intro n hn; simp [log2_aux]; omega
  | succ f ih =>
    intro n hn
    unfold log2_aux
    by_cases h2 : n < 2
    · simp [h2]
    · rw [if_neg h2]
      have h1 : n / 2 ≤ f := by omega
      have := ih (n / 2) h1
      rw [pow_succ]
      omega

/-- The binary exponent found by `ilog2` is not too large: `2 ^ ilog2 q ≤ q`. -/
theorem two_zpow_ilog2_le (q : ℚ) (hq : 0 < q) : (2 : ℚ) ^ ilog2 q ≤ q := by
  unfold ilog2
  simp only
  split
  · assumption
  · have hnum : 0 < q.num := Rat.num_pos.mpr hq
    have hn1 : 1 ≤ q.num.natAbs := by omega
    have hd1 : 1 ≤ q.den := q.den_pos
    have ha := log2_aux_le q.num.natAbs q.num.natAbs hn1
    have hb := lt_log2_aux q.den q.den (le_refl _)
    set a := log2_aux q.num.natAbs q.num.natAbs
    set b := log2_aux q.den q.den
    have hqe : q = (q.num.natAbs : ℚ) / (q.den : ℚ) := by
      have h1 : ((q.num.natAbs : ℤ) : ℚ) = (q.num : ℚ) := by
        rw [Int.natAbs_of_nonneg (le_of_lt hnum)]
      have h2 : ((q.num.natAbs : ℕ) : ℚ) = ((q.num.natAbs : ℤ) : ℚ) := (Int.cast_natCast _).symm
      rw [h2, h1]
      exact (Rat.num_div_den q).symm
    have hpow : (2 : ℚ) ^ ((a : ℤ) - (b : ℤ) - 1) = (2 : ℚ) ^ a / (2 : ℚ) ^ (b + 1) := by
      rw [show (a : ℤ) - (b : ℤ) - 1 = (a : ℤ) - ((b + 1 : ℕ) : ℤ) by push_cast; ring]
      rw [zpow_sub₀ (two_ne_zero), zpow_natCast, zpow_natCast]
    rw [hpow]
    have ha' : (2 : ℚ) ^ a ≤ (q.num.natAbs : ℚ) := by exact_mod_cast ha
    have hb' : (q.den : ℚ) ≤ (2 : ℚ) ^ (b + 1) := by exact_mod_cast le_of_lt hb
    have hdpos : (0 : ℚ) < (q.den : ℚ) := by exact_mod_cast q.den_pos
    rw [hqe, div_le_div_iff₀ (by positivity) hdpos]
    calc (2 : ℚ) ^ a * (q.den : ℚ) ≤ (q.num.natAbs : ℚ) * (q.den : ℚ) :=
          mul_le_mul_of_nonneg_right ha' (le_of_lt hdpos)
      _ ≤ (q.num.natAbs : ℚ) * (2 : ℚ) ^ (b + 1) :=
          mul_le_mul_of_nonneg_left hb' (by positivity)

theorem round_half_even_le (y : ℚ) (k : ℤ) (h : y ≤ k) : round_half_even y ≤ k := by
  unfold round_half_even
  simp only
  have hf : ⌊y⌋ ≤ k := by
    have : ⌊y⌋ ≤ ⌊(k : ℚ)⌋ := Int.floor_le_floor h
    simpa using this
  have hfl : (⌊y⌋ : ℚ) ≤ y := Int.floor_le y
  have hstep : 1 / 2 ≤ y - ⌊y⌋ → ⌊y⌋ + 1 ≤ k := by
    intro hr
    have hlt : (⌊y⌋ : ℚ) < k := by linarith
    have : ⌊y⌋ < k := by exact_mod_cast hlt
    omega
  split
  · exact hf
  · rename_i h1
    push_neg at h1
    split
    · exact hstep h1
    · split
      · exact hf
      · exact hstep h1

theorem le_round_half_even (y : ℚ) (k : ℤ) (h : (k : ℚ) ≤ y) : k ≤ round_half_even y := by
  unfold round_half_even
  simp only
  have hf : k ≤ ⌊y⌋ := Int.le_floor.mpr h
  split
  · exact hf
  · split
    · omega
    · split
      · exact hf
      · omega

theorem rnd_of_ne_zero (p : ℕ) (x : ℚ) (hx : x ≠ 0) :
    rnd p x = (round_half_even (x / (2 : ℚ) ^ (ilog2 |x| - ((p : ℤ) - 1))) : ℚ)
      * (2 : ℚ) ^ (ilog2 |x| - ((p : ℤ) - 1)) := by
  unfold rnd
  rw [if_neg hx]

theorem two_zpow_split (p : ℕ) (hp : 1 ≤ p) (E : ℤ) :
    (2 : ℚ) ^ E = (((2 : ℤ) ^ (p - 1) : ℤ) : ℚ) * (2 : ℚ) ^ (E - ((p : ℤ) - 1)) := by
  push_cast
  rw [← zpow_natCast, ← zpow_add₀ (two_ne_zero)]
  congr 1
  rw [Nat.cast_sub hp]
  push_cast
  ring

theorem abs_repr_lt (p : ℕ) (k e E : ℤ) (hk : |k| < 2 ^ p) (he : e < E - ((p : ℤ) - 1)) :
    |(k : ℚ) * (2 : ℚ) ^ e| < (2 : ℚ) ^ E := by
  have h2e : (0 : ℚ) < (2 : ℚ) ^ e := zpow_pos (by norm_num) _
  rw [abs_mul, abs_of_pos h2e]
  have hk' : |(k : ℚ)| < (2 : ℚ) ^ p := by
    have : ((|k| : ℤ) : ℚ) < (((2 : ℤ) ^ p : ℤ) : ℚ) := by exact_mod_cast hk
    simpa using this
  calc |(k : ℚ)| * (2 : ℚ) ^ e < (2 : ℚ) ^ p * (2 : ℚ) ^ e := mul_lt_mul_of_pos_right hk' h2e
    _ = (2 : ℚ) ^ ((p : ℤ) + e) := by rw [zpow_add₀ (two_ne_zero), zpow_natCast]
    _ ≤ (2 : ℚ) ^ E := zpow_le_zpow_right₀ (by norm_num) (by omega)

/-- Rounding does not cross a representable number from below. -/
theorem rnd_le_of_le (p : ℕ) (hp : 1 ≤ p) (x r : ℚ) (hr : Representable p r) (h : x ≤ r) :
    rnd p x ≤ r := by
  by_cases hx : x = 0
  · rw [hx] at h ⊢
    simpa [rnd] using h
  obtain ⟨k, e, hk, rfl⟩ := hr
  have ha : 0 < |x| := abs_pos.mpr hx
  have hEle : (2 : ℚ) ^ ilog2 |x| ≤ |x| := two_zpow_ilog2_le _ ha
  have hrnd := rnd_of_ne_zero p x hx
  have h2E := two_zpow_split p hp (ilog2 |x|)
  set E := ilog2 |x|
  set s := (2 : ℚ) ^ (E - ((p : ℤ) - 1))
  have hspos : 0 < s := zpow_pos (by norm_num) _
  by_cases hm : E - ((p : ℤ) - 1) ≤ e
  · obtain ⟨m, hm'⟩ := Int.eq_ofNat_of_zero_le (sub_nonneg.mpr hm)
    have he : (2 : ℚ) ^ e = (2 : ℚ) ^ m * s := by
      rw [← zpow_natCast, ← zpow_add₀ (two_ne_zero)]
      congr 1
      omega
    have hr' : (k : ℚ) * (2 : ℚ) ^ e = ((k * 2 ^ m : ℤ) : ℚ) * s := by
      push_cast; rw [he]; ring
    rw [hrnd, hr']
    apply mul_le_mul_of_nonneg_right _ hspos.le
    have hdiv : x / s ≤ ((k * 2 ^ m : ℤ) : ℚ) := by
      rw [div_le_iff₀ hspos, ← hr']; exact h
    exact_mod_cast round_half_even_le _ _ hdiv
  · push_neg at hm
    have hrlt := abs_repr_lt p k e E hk hm
    have hxneg : x < 0 := by
      by_contra hcon
      push_neg at hcon
      have h1 : |x| = x := abs_of_nonneg hcon
      have h2 := le_abs_self ((k : ℚ) * (2 : ℚ) ^ e)
      linarith
    have hxle : x ≤ -(2 : ℚ) ^ E := by
      have := abs_of_neg hxneg
      linarith
    have hdiv : x / s ≤ ((-(2 : ℤ) ^ (p - 1) : ℤ) : ℚ) := by
      rw [div_le_iff₀ hspos]
      have : ((-(2 : ℤ) ^ (p - 1) : ℤ) : ℚ) * s = -(2 : ℚ) ^ E := by
        rw [h2E]; push_cast; ring
      rw [this]; exact hxle
    have h3 : (round_half_even (x / s) : ℚ) ≤ ((-(2 : ℤ) ^ (p - 1) : ℤ) : ℚ) := by
      exact_mod_cast round_half_even_le _ _ hdiv
    have h4 : rnd p x ≤ -(2 : ℚ) ^ E := by
      rw [hrnd]
      calc (round_half_even (x / s) : ℚ) * s ≤ ((-(2 : ℤ) ^ (p - 1) : ℤ) : ℚ) * s :=
            mul_le_mul_of_nonneg_right h3 hspos.le
        _ = -(2 : ℚ) ^ E := by rw [h2E]; push_cast; ring
    have h5 := neg_abs_le ((k : ℚ) * (2 : ℚ) ^ e)
    linarith

/-- Rounding does not cross a representable number from above. -/
theorem le_rnd_of_le (p : ℕ) (hp : 1 ≤ p) (x r : ℚ) (hr : Representable p r) (h : r ≤ x) :
    r ≤ rnd p x := by
  by_cases hx : x = 0
  · rw [hx] at h ⊢
    simpa [rnd] using h
  obtain ⟨k, e, hk, rfl⟩ := hr
  have ha : 0 < |x| := abs_pos.mpr hx
  have hEle : (2 : ℚ) ^ ilog2 |x| ≤ |x| := two_zpow_ilog2_le _ ha
  have hrnd := rnd_of_ne_zero p x hx
  have h2E := two_zpow_split p hp (ilog2 |x|)
  set E := ilog2 |x|
  set s := (2 : ℚ) ^ (E - ((p : ℤ) - 1))
  have hspos : 0 < s := zpow_pos (by norm_num) _
  by_cases hm : E - ((p : ℤ) - 1) ≤ e
  · obtain ⟨m, hm'⟩ := Int.eq_ofNat_of_zero_le (sub_nonneg.mpr hm)
    have he : (2 : ℚ) ^ e = (2 : ℚ) ^ m * s := by
      rw [← zpow_natCast, ← zpow_add₀ (two_ne_zero)]
      congr 1
      omega
    have hr' : (k : ℚ) * (2 : ℚ) ^ e = ((k * 2 ^ m : ℤ) : ℚ) * s := by
      push_cast; rw [he]; ring
    rw [hrnd, hr']
    apply mul_le_mul_of_nonneg_right _ hspos.le
    have hdiv : ((k * 2 ^ m : ℤ) : ℚ) ≤ x / s := by
      rw [le_div_iff₀ hspos, ← hr']; exact h
    exact_mod_cast le_round_half_even _ _ hdiv
  · push_neg at hm
    have hrlt := abs_repr_lt p k e E hk hm
    have hxpos : 0 < x := by
      by_contra hcon
      push_neg at hcon
      have h1 : |x| = -x := abs_of_nonpos hcon
      have h2 := neg_abs_le ((k : ℚ) * (2 : ℚ) ^ e)
      linarith
    have hxle : (2 : ℚ) ^ E ≤ x := by
      have := abs_of_pos hxpos
      linarith
    have hdiv : (((2 : ℤ) ^ (p - 1) : ℤ) : ℚ) ≤ x / s := by
      rw [le_div_iff₀ hspos, ← h2E]; exact hxle
    have h3 : (((2 : ℤ) ^ (p - 1) : ℤ) : ℚ) ≤ (round_half_even (x / s) : ℚ) := by
      exact_mod_cast le_round_half_even _ _ hdiv
    have h4 : (2 : ℚ) ^ E ≤ rnd p x := by
      rw [hrnd]
      calc (2 : ℚ) ^ E = (((2 : ℤ) ^ (p - 1) : ℤ) : ℚ) * s := h2E
        _ ≤ (round_half_even (x / s) : ℚ) * s := mul_le_mul_of_nonneg_right h3 hspos.le
    have h5 := le_abs_self ((k : ℚ) * (2 : ℚ) ^ e)
    linarith

/-- A representable number is its own rounding. -/
theorem rnd_of_representable (p : ℕ) (hp : 1 ≤ p) (r : ℚ) (hr : Representable p r) :
    rnd p r = r :=
  le_antisymm (rnd_le_of_le p hp r r hr (le_refl r)) (le_rnd_of_le p hp r r hr (le_refl r))

/-- Integers below `2^p` in magnitude are representable. -/
theorem representable_int (p : ℕ) (n : ℤ) (hn : |n| < 2 ^ p) : Representable p (n : ℚ) :=
  ⟨n, 0, hn, by simp⟩

theorem cpow_nat_zero_succ (n : Nat) : cpow_nat (0, 0) (n + 1) = (0, 0) := by
  simp [cpow_nat, cmul]

theorem sampleLibm_lawful : sampleLibm.Lawful where
  log_mono := by
    intro a b ha hab
    have hb : 0 < b := lt_of_lt_of_le ha hab
    show 2 * (a - 1) / (a + 1) ≤ 2 * (b - 1) / (b + 1)
    rw [div_le_div_iff₀ (by linarith) (by linarith)]
    nlinarith
  log_le := by
    intro x hx
    show 2 * (x - 1) / (x + 1) ≤ x - 1
    rw [div_le_iff₀ (by linarith)]
    nlinarith [sq_nonneg (x - 1)]
  le_log := by
    intro x hx
    show 1 - 1 / x ≤ 2 * (x - 1) / (x + 1)
    rw [le_div_iff₀ (by linarith)]
    have h1 : (1 - 1 / x) * (x + 1) = x - 1 / x := by field_simp; ring
    rw [h1]
    have h2 : 1 / x = 2 - x + (x - 1) ^ 2 / x := by field_simp; ring
    have h3 : 0 ≤ (x - 1) ^ 2 / x := div_nonneg (sq_nonneg _) hx.le
    linarith
  cabsf_real := by
    intro x
    show max |x| |(0 : ℚ)| = |x|
    unfold max
    simp
    intro h
    rw [h]
    simp
  re_le_cabsf := by
    intro z
    show |z.1| ≤ max |z.1| |z.2|
    unfold max
    split
    · exact le_refl _
    · rename_i h
      exact not_lt.mp h
  cabsf_le := by
    intro z
    show max |z.1| |z.2| ≤ |z.1| + |z.2| + 1
    unfold max
    have h1 := abs_nonneg z.1
    have h2 := abs_nonneg z.2
    split <;> linarith
  cpowf_zero := by
    intro w hw
    show cpow_nat (0, 0) ⌊w.1⌋.toNat = (0, 0)
    have h1 : (1 : ℤ) ≤ ⌊w.1⌋ := Int.le_floor.mpr (by simpa using hw)
    obtain ⟨n, hn⟩ : ∃ n : Nat, ⌊w.1⌋.toNat = n + 1 := ⟨⌊w.1⌋.toNat - 1, by omega⟩
    rw [hn]
    exact cpow_nat_zero_succ n
  cpowf_two := by
    intro z _ _
    have h2 : ⌊((2 : ℚ), (0 : ℚ)).1⌋.toNat = 2 := by
      show ⌊(2 : ℚ)⌋.toNat = 2
      have : ⌊(2 : ℚ)⌋ = 2 := by simp
      rw [this]; rfl
    have hc : sampleLibm.cpowf z (2, 0) = (z.1 * z.1 - z.2 * z.2, z.1 * z.2 + z.2 * z.1) := by
      show cpow_nat z ⌊((2 : ℚ), (0 : ℚ)).1⌋.toNat = _
      rw [h2]
      simp [cpow_nat, cmul]
    rw [hc]
    constructor
    · simp
    · have : z.1 * z.2 + z.2 * z.1 - 2 * z.1 * z.2 = 0 := by ring
      simp [this]

/-! ## Band reassembly -/

theorem band_size_succ (W : Nat) (hW : 1 ≤ W) : band_size (W + 1) = some (Y / W) := by
  unfold band_size
  rw [Nat.add_sub_cancel, if_neg (by omega)]

/-- C1. Band reassembly is exact. For every worker count `W ≥ 1` that divides the
frame height and every arrival order of the `W` bands, the receive loop of
`master` completes, and for every frame pixel `(row, col)` exactly one store of
its copy loop targets the pixel: the one that reads cell `col*size + row % size`
of the band of worker `row / size` (rank `row / size + 1`), where `slave` put
`mandelbrot(col, row, palette, power)`; the frame holds that value afterwards. -/
theorem band_reassembly_exact (L : Libm) (palette : List Color) (power : ℚ)
    (W : Nat) (hW : 1 ≤ W) (hdiv : W ∣ Y)
    (arrival : List Nat) (hperm : arrival.Perm (List.range' 1 W))
    (bufs0 : Nat → Nat → Option Color) (recv0 : Nat → Option Color)
    (colors0 : Nat → Nat → Option Color)
    (row col : Nat) (hrow : row < Y) (hcol : col < X) :
    ∃ g : Gather (Option Color),
      master_gather (fun x y => mandelbrot L x y palette power) (W + 1) arrival bufs0 recv0
          colors0 = some g
      ∧ g.log.filter (Store.hits row col)
          = [{ row := row, col := col, val := mandelbrot L col row palette power,
               source := row / (Y / W), idx := col * (Y / W) + row % (Y / W) }]
      ∧ g.colors row col = mandelbrot L col row palette power
      ∧ ∃ buf : Nat → Option Color,
          slave (fun x y => mandelbrot L x y palette power) (W + 1) (row / (Y / W) + 1)
              (bufs0 (row / (Y / W) + 1)) = some buf
          ∧ buf (col * (Y / W) + row % (Y / W)) = mandelbrot L col row palette power := by
  have hsize := band_size_succ W hW
  have hcover : row < W * (Y / W) := by rw [Nat.mul_div_cancel' hdiv]; exact hrow
  have hsz : 0 < Y / W := by
    rcases Nat.eq_zero_or_pos (Y / W) with h | h
    · rw [h, Nat.mul_zero] at hcover; exact absurd hcover (Nat.not_lt_zero row)
    · exact h
  obtain ⟨g, hg, hlog, hcolors⟩ := master_gather_eq
    (fun x y => mandelbrot L x y palette power) (W + 1) (Y / W) hsize arrival bufs0 recv0 colors0
  have hhits := gather_log_hits (fun x y => mandelbrot L x y palette power) W (Y / W) arrival
    hperm bufs0 row col hcover hcol
  refine ⟨g, hg, ?_, ?_, ?_⟩
  · rw [hlog]; exact hhits
  · rw [hcolors, foldl_store_single row col _ _ colors0 hhits]
  · refine ⟨(slave_stores (fun x y => mandelbrot L x y palette power) (Y / W)
        (row / (Y / W) + 1)).foldl BufStore.apply (bufs0 (row / (Y / W) + 1)),
      by simp [slave, hsize], ?_⟩
    have h := slave_buf_cell (fun x y => mandelbrot L x y palette power) (Y / W)
      (row / (Y / W) + 1) (bufs0 (row / (Y / W) + 1)) col (row % (Y / W)) hcol
      (Nat.mod_lt row hsz)
    rw [h]
    have hrow' : (row / (Y / W) + 1 - 1) * (Y / W) + row % (Y / W) = row :=
      (row_split (Nat.mod_lt row hsz)).mpr ⟨Nat.add_sub_cancel (row / (Y / W)) 1, rfl⟩
    simp only [hrow']

theorem band_reassembly_exact_witness :
    ∃ g : Gather (Option Color),
      master_gather (fun x y => mandelbrot sampleLibm x y sample_palette 2) (2 + 1) [2, 1]
          (fun _ _ => none) (fun _ => none) (fun _ _ => none) = some g
      ∧ g.log.filter (Store.hits 700 3)
          = [{ row := 700, col := 3, val := mandelbrot sampleLibm (3 : Nat) (700 : Nat)
                sample_palette 2,
               source := 700 / (Y / 2), idx := 3 * (Y / 2) + 700 % (Y / 2) }]
      ∧ g.colors 700 3 = mandelbrot sampleLibm (3 : Nat) (700 : Nat) sample_palette 2
      ∧ ∃ buf : Nat → Option Color,
          slave (fun x y => mandelbrot sampleLibm x y sample_palette 2) (2 + 1)
              (700 / (Y / 2) + 1) ((fun _ _ => none) (700 / (Y / 2) + 1)) = some buf
          ∧ buf (3 * (Y / 2) + 700 % (Y / 2))
              = mandelbrot sampleLibm (3 : Nat) (700 : Nat) sample_palette 2 :=
  band_reassembly_exact sampleLibm sample_palette 2 2 (by decide) (by decide) [2, 1]
    (by decide) (fun _ _ => none) (fun _ => none) (fun _ _ => none) 700 3 (by decide) (by decide)

/-! ## Process groups whose worker count does not divide the height -/

/-- C8, counterexample. With 8 processes (7 workers) the receive loop of `master`
completes: nothing rejects the configuration, the band height is 154, no store
targets row 1079 and that row of the frame keeps the content of the allocation. -/
theorem no_rejection_cex :
    band_size 8 = some 154 ∧
    ∃ g : Gather Nat,
      master_gather (fun _ _ => 1) 8 [1, 2, 3, 4, 5, 6, 7] (fun _ _ => 0) (fun _ => 0)
          (fun _ _ => 0) = some g
      ∧ g.log.filter (Store.hits 1079 0) = []
      ∧ g.colors 1079 0 = 0 := by
  have hsize : band_size 8 = some 154 := by decide
  refine ⟨hsize, ?_⟩
  obtain ⟨g, hg, hlog, hcolors⟩ := master_gather_eq (fun _ _ => 1) 8 154 hsize
    [1, 2, 3, 4, 5, 6, 7] (fun _ _ => 0) (fun _ => 0) (fun _ _ => 0)
  have hmiss := gather_log_miss (fun _ _ => 1) 7 154 [1, 2, 3, 4, 5, 6, 7] (by decide)
    (fun _ _ => 0) 1079 0 (by decide)
  refine ⟨g, hg, ?_, ?_⟩
  · rw [hlog]; exact hmiss
  · rw [hcolors, foldl_store_untouched 1079 0 _ _ hmiss]

/-- C8, amended. The program does not validate the size of the process group.
For every worker count `W ≥ 1` and every arrival order the receive loop of
`master` completes with band height `Y / W`; each pixel of the rows below
`W * (Y / W)` is stored exactly once and holds the pixel function's value, and no
store targets a row from `W * (Y / W)` on: those rows keep the content of the
allocation. -/
theorem gather_rows_covered {α : Type} (kernel : Nat → Nat → α)
    (W : Nat) (hW : 1 ≤ W)
    (arrival : List Nat) (hperm : arrival.Perm (List.range' 1 W))
    (bufs0 : Nat → Nat → α) (recv0 : Nat → α) (colors0 : Nat → Nat → α) :
    ∃ g : Gather α,
      master_gather kernel (W + 1) arrival bufs0 recv0 colors0 = some g
      ∧ (∀ row col, row < W * (Y / W) → col < X →
          (g.log.filter (Store.hits row col)).length = 1 ∧ g.colors row col = kernel col row)
      ∧ (∀ row col, W * (Y / W) ≤ row →
          g.log.filter (Store.hits row col) = [] ∧ g.colors row col = colors0 row col) := by
  have hsize := band_size_succ W hW
  obtain ⟨g, hg, hlog, hcolors⟩ := master_gather_eq kernel (W + 1) (Y / W) hsize arrival bufs0
    recv0 colors0
  refine ⟨g, hg, ?_, ?_⟩
  · intro row col hrow hcol
    have hhits := gather_log_hits kernel W (Y / W) arrival hperm bufs0 row col hrow hcol
    constructor
    · rw [hlog, hhits]; rfl
    · rw [hcolors, foldl_store_single row col _ _ colors0 hhits]
  · intro row col hrow
    have hmiss := gather_log_miss kernel W (Y / W) arrival hperm bufs0 row col hrow
    constructor
    · rw [hlog]; exact hmiss
    · rw [hcolors, foldl_store_untouched row col _ _ hmiss]

theorem gather_rows_covered_witness :
    ∃ g : Gather Nat,
      master_gather (fun x y => x + y) (7 + 1) [3, 1, 2, 7, 6, 5, 4] (fun _ _ => 0) (fun _ => 0)
          (fun _ _ => 0) = some g
      ∧ (∀ row col, row < 7 * (Y / 7) → col < X →
          (g.log.filter (Store.hits row col)).length = 1 ∧ g.colors row col = col + row)
      ∧ (∀ row col, 7 * (Y / 7) ≤ row →
          g.log.filter (Store.hits row col) = [] ∧ g.colors row col = 0) :=
  gather_rows_covered (fun x y => x + y) 7 (by decide) [3, 1, 2, 7, 6, 5, 4] (by decide)
    (fun _ _ => 0) (fun _ => 0) (fun _ _ => 0)

/-! ## Palette: size and sentinel -/

/-- C2. For every iteration ceiling `N` (in particular every `N > 1`) and every
mathematical library, `make_palette(N)` has exactly `N + 1` entries and its last
entry, index `N`, is black `(0,0,0)`. -/
theorem make_palette_sentinel (L : Libm) (N : Nat) :
    (make_palette L N).length = N + 1
      ∧ (make_palette L N)[N]? = some (some { r := 0, g := 0, b := 0 }) := by
  constructor
  · simp [make_palette]
  · unfold make_palette
    rw [List.getElem?_map, List.getElem?_range (Nat.lt_succ_self N)]
    simp [palette_entry]

/-! ## Image file -/

theorem length_flatMap_range_const {β : Type} (m : Nat) (f : Nat → List β) :
    ∀ n : Nat, (∀ i, i < n → (f i).length = m) → ((List.range n).flatMap f).length = n * m := by
  intro n
  induction n with
  | zero => intro _; simp
  | succ n ih =>
    intro h
    rw [List.range_succ, List.flatMap_append, List.length_append,
      ih (fun i hi => h i (Nat.lt_succ_of_lt hi))]
    simp [h n (Nat.lt_succ_self n)]
    ring

theorem getElem?_flatMap_range_const {β : Type} (m : Nat) (f : Nat → List β) :
    ∀ n : Nat, (∀ i, i < n → (f i).length = m) → ∀ i j, i < n → j < m →
      ((List.range n).flatMap f)[i * m + j]? = (f i)[j]? := by
  intro n
  induction n with
  | zero => intro _ i j hi _; exact absurd hi (Nat.not_lt_zero i)
  | succ n ih =>
    intro h i j hi hj
    have hlen := length_flatMap_range_const m f n (fun i hi => h i (Nat.lt_succ_of_lt hi))
    rw [List.range_succ, List.flatMap_append]
    rcases Nat.lt_succ_iff_lt_or_eq.mp hi with hlt | heq
    · have hidx : i * m + j < ((List.range n).flatMap f).length := by
        rw [hlen]
        calc i * m + j < i * m + m := Nat.add_lt_add_left hj _
          _ = (i + 1) * m := by ring
          _ ≤ n * m := Nat.mul_le_mul_right _ hlt
      rw [List.getElem?_append_left hidx]
      exact ih (fun i hi => h i (Nat.lt_succ_of_lt hi)) i j hlt hj
    · subst heq
      have hidx : ((List.range i).flatMap f).length ≤ i * m + j := by
        rw [hlen]; exact Nat.le_add_right _ _
      rw [List.getElem?_append_right hidx, hlen, Nat.add_sub_cancel_left]
      simp

/-- C3. For every frame buffer, the byte stream `master` writes is the header
`"P6\n1920 1080\n255\n"` followed by exactly `X*Y*3` data bytes, and the three
bytes at data offset `3*(row*X + col)` are the `r`, `g`, `b` channels of the frame
pixel `(row, col)`: row-major, top row first. -/
theorem master_write_layout (colors : Nat → Nat → Color) :
    master_write colors = ppm_header ++ ppm_data colors
      ∧ ppm_header = ("P6\n1920 1080\n255\n".toList.map Char.toNat)
      ∧ (ppm_data colors).length = X * Y * 3
      ∧ ∀ row col, row < Y → col < X →
          (ppm_data colors)[3 * (row * X + col)]? = some (colors row col).r
          ∧ (ppm_data colors)[3 * (row * X + col) + 1]? = some (colors row col).g
          ∧ (ppm_data colors)[3 * (row * X + col) + 2]? = some (colors row col).b := by
  have hinner : ∀ y, ((List.range X).flatMap fun x =>
      [(colors y x).r, (colors y x).g, (colors y x).b]).length = X * 3 := by
    intro y
    exact length_flatMap_range_const 3
      (fun x => [(colors y x).r, (colors y x).g, (colors y x).b]) X (fun _ _ => rfl)
  have hcell : ∀ row col k, row < Y → col < X → k < 3 →
      (ppm_data colors)[3 * (row * X + col) + k]?
        = [(colors row col).r, (colors row col).g, (colors row col).b][k]? := by
    intro row col k hrow hcol hk
    have h1 : 3 * (row * X + col) + k = row * (X * 3) + (col * 3 + k) := by ring
    have h2 : col * 3 + k < X * 3 := by omega
    unfold ppm_data
    rw [h1, getElem?_flatMap_range_const (X * 3) _ Y (fun y _ => hinner y) row (col * 3 + k)
      hrow h2]
    exact getElem?_flatMap_range_const 3
      (fun x => [(colors row x).r, (colors row x).g, (colors row x).b]) X (fun _ _ => rfl)
      col k hcol hk
  refine ⟨rfl, by decide, ?_, ?_⟩
  · unfold ppm_data
    rw [length_flatMap_range_const (X * 3) _ Y (fun y _ => hinner y)]
    ring
  · intro row col hrow hcol
    refine ⟨?_, ?_, ?_⟩
    · have := hcell row col 0 hrow hcol (by decide)
      simpa using this
    · have := hcell row col 1 hrow hcol (by decide)
      simpa using this
    · have := hcell row col 2 hrow hcol (by decide)
      simpa using this

/-! ## Frame index over the sweep -/

/-- C4, evaluation of the code. In round 105 of the sweep the exponent is the
`double` nearest to 2.05, between `MIN_POWER` and `MAX_POWER`; the quotient
`(power - MIN_POWER)/dP` computed in `double` is just below 105, so the
truncating cast of `master` gives frame index 104, the index of round 104 again,
while the nearest integer to the quotient is 105. -/
theorem frame_index_truncates :
    sweep 105 = 2308094809027379 / 1125899906842624
      ∧ MIN_POWER ≤ sweep 105 ∧ sweep 105 ≤ MAX_POWER
      ∧ ddiv (dsub (sweep 105) MIN_POWER) dP = some (7388718138654719 / 70368744177664)
      ∧ frame_index (sweep 104) = some 104
      ∧ frame_index (sweep 105) = some 104
      ∧ spec_frame_index (sweep 105) = some 105 := by
  decide!

/-! ## Base of the outer logarithm in the smoothing correction -/

/-- C9, evaluation of the code. For an exponent strictly between 2 and 3 the call
`abs(power)` yields the integer 2, so the correction `nu` that `mandelbrot`
computes is the quotient by `log(2)`, whereas `max(2, |power|)` is `power` and the
correction of the specification is the quotient by `log(power)`. -/
theorem smooth_nu_truncates_power (L : Libm) (z : ℚ × ℚ) (power : ℚ) (h2 : 2 < power)
    (h3 : power < 3) :
    abs_power power = some 2
      ∧ max 2 |power| = power
      ∧ smooth_nu L z power = (do
          let l ← dlog L (L.cabsf z)
          let log_zn ← ddiv l power
          let l2 ← dlog L 2
          let q ← ddiv log_zn l2
          let a ← dlog L q
          let b ← dlog L 2
          ddiv a b)
      ∧ spec_smooth_nu L z power = (do
          let l ← dlog L (L.cabsf z)
          let log_zn ← ddiv l power
          let l2 ← dlog L 2
          let q ← ddiv log_zn l2
          let a ← dlog L q
          let b ← dlog L power
          ddiv a b) := by
  have htr : trunc power = 2 := by
    unfold trunc
    rw [if_pos (by linarith), Int.floor_eq_iff]
    constructor
    · push_cast; linarith
    · push_cast; linarith
  have h1 : abs_power power = some 2 := by
    unfold abs_power to_int
    rw [htr]
    decide
  have hm2 : max 2 ((2 : ℤ) : ℚ) = 2 := by decide!
  have hm3 : max 2 |power| = power := by
    rw [abs_of_pos (by linarith)]
    unfold max
    rw [if_neg (by linarith)]
  refine ⟨h1, hm3, ?_, ?_⟩
  · unfold smooth_nu
    simp only [h1, hm2, Option.some_bind, Option.bind_eq_bind]
  · unfold spec_smooth_nu
    simp only [hm3]

theorem smooth_nu_truncates_power_witness :
    abs_power (sweep 150) = some 2
      ∧ max 2 |sweep 150| = sweep 150
      ∧ smooth_nu sampleLibm (21, 0) (sweep 150) = (do
          let l ← dlog sampleLibm (sampleLibm.cabsf (21, 0))
          let log_zn ← ddiv l (sweep 150)
          let l2 ← dlog sampleLibm 2
          let q ← ddiv log_zn l2
          let a ← dlog sampleLibm q
          let b ← dlog sampleLibm 2
          ddiv a b)
      ∧ spec_smooth_nu sampleLibm (21, 0) (sweep 150) = (do
          let l ← dlog sampleLibm (sampleLibm.cabsf (21, 0))
          let log_zn ← ddiv l (sweep 150)
          let l2 ← dlog sampleLibm 2
          let q ← ddiv log_zn l2
          let a ← dlog sampleLibm q
          let b ← dlog sampleLibm (sweep 150)
          ddiv a b) :=
  smooth_nu_truncates_power sampleLibm (21, 0) (sweep 150) (by decide!) (by decide!)

/-! ## Exact cases of the floating-point operations -/

theorem rnd53_nat (n : Nat) (hn : n < 2 ^ 53) : rnd 53 (n : ℚ) = n := by
  have h : Representable 53 ((n : ℤ) : ℚ) :=
    representable_int 53 n (by rw [abs_of_nonneg (Int.natCast_nonneg n)]; exact_mod_cast hn)
  have := rnd_of_representable 53 (by decide) _ h
  simpa using this

theorem dadd_nat_one (k : Nat) (hk : k < 2 ^ 52) : dadd (k : ℚ) 1 = ((k + 1 : Nat) : ℚ) := by
  unfold dadd
  have := rnd53_nat (k + 1) (by omega)
  push_cast at this ⊢
  exact this

theorem to_int_nat (n : Nat) (hn : n < 2 ^ 31) : to_int (n : ℚ) = some (n : ℤ) := by
  have ht : trunc (n : ℚ) = (n : ℤ) := by
    unfold trunc
    rw [if_pos (by positivity)]
    exact Int.floor_natCast n
  unfold to_int
  rw [ht, if_pos]
  constructor
  · have : (0 : ℤ) ≤ (n : ℤ) := Int.natCast_nonneg n
    omega
  · exact_mod_cast hn

/-- Interpolation between equal bytes at `t = 0` returns the byte. -/
theorem shade_channel_same (v : Nat) (hv : v < 256) : shade_channel v v 0 = some v := by
  have h1 : dsub 1 0 = 1 := by decide!
  have hv53 : rnd 53 (v : ℚ) = v := rnd53_nat v (by omega)
  have h2 : dmul 1 (v : ℚ) = v := by unfold dmul; rw [one_mul]; exact hv53
  have h3 : dmul 0 (v : ℚ) = 0 := by unfold dmul; rw [zero_mul]; simp [rnd]
  have h4 : lerp v v 0 = v := by
    unfold lerp
    rw [h1, h2, h3]
    unfold dadd
    rw [add_zero]; exact hv53
  unfold shade_channel
  rw [h4, to_int_nat v (by omega)]
  simp only [Option.map_some', int_to_uchar]
  congr 1
  omega

/-! ## The kernel at the iteration ceiling -/

theorem pixel_to_point_eq (px py : ℤ) :
    pixel_to_point px py = some
      (rnd 24 (dadd R_MIN (dmul px (rnd 53 (7 / 3840)))),
       rnd 24 (dadd I_MIN (dmul py (rnd 53 (1 / 540))))) := by
  have h1 : ddiv (dsub R_MAX R_MIN) (dmul X 1) = some (rnd 53 (7 / 3840)) := by decide!
  have h2 : ddiv (dsub I_MAX I_MIN) (dmul Y 1) = some (rnd 53 (1 / 540)) := by decide!
  unfold pixel_to_point
  rw [h1, h2]
  rfl

/-- If the escape condition holds through `MAX_ITER` steps, the loop ends with
the count `MAX_ITER`. -/
theorem escape_loop_ceiling (L : Libm) (power : ℚ) (c : ℚ × ℚ) :
    ∀ (fuel k : Nat) (z : ℚ × ℚ), k + fuel = MAX_ITER →
      (∀ j, j < fuel → L.cabsf ((escape_step L power c)^[j] z) ≤ 20) →
      escape_loop L power c fuel z (k : ℚ)
        = some ((escape_step L power c)^[fuel] z, (MAX_ITER : ℚ)) := by
  intro fuel
  induction fuel with
  | zero =>
    intro k z hk _
    have hk' : k = MAX_ITER := by omega
    unfold escape_loop
    rw [hk', if_neg (by simp)]
    rfl
  | succ f ih =>
    intro k z hk hb
    have hlt : (k : ℚ) < (MAX_ITER : ℚ) := by
      have : k < MAX_ITER := by omega
      exact_mod_cast this
    have h0 : L.cabsf z ≤ 20 := hb 0 (Nat.succ_pos f)
    have hk52 : k < 2 ^ 52 := by
      have : k < MAX_ITER := by omega
      unfold MAX_ITER at this
      omega
    unfold escape_loop
    rw [if_pos ⟨h0, hlt⟩, dadd_nat_one k hk52]
    rw [ih (k + 1) (escape_step L power c z) (by omega)]
    · rw [Function.iterate_succ_apply]
    · intro j hj
      have := hb (j + 1) (Nat.succ_lt_succ hj)
      rwa [Function.iterate_succ_apply] at this

/-- At the ceiling the smoothing step is skipped and both palette reads are
`palette[MAX_ITER]`, interpolated at `t = 0`. -/
theorem shade_at_ceiling (palette : List Color) (last : Color)
    (hlast : palette[MAX_ITER]? = some last) (hwf : last.wf) :
    shade palette (MAX_ITER : ℚ) = some last := by
  have hidx : palette_indices (MAX_ITER : ℚ) = some ((MAX_ITER : ℤ), (MAX_ITER : ℤ)) := by
    decide!
  have hread : palette_read palette (MAX_ITER : ℤ) = some last := by
    unfold palette_read
    rw [if_pos (Int.natCast_nonneg _)]
    simpa using hlast
  have hmod : dsub (MAX_ITER : ℚ) ((MAX_ITER : ℤ) : ℚ) = 0 := by decide!
  unfold shade
  simp only [hidx, Option.bind_eq_bind, Option.some_bind, hread, hmod,
    shade_channel_same _ hwf.1, shade_channel_same _ hwf.2.1, shade_channel_same _ hwf.2.2,
    Option.pure_def]

theorem smooth_at_ceiling (L : Libm) (z : ℚ × ℚ) (power : ℚ) :
    smooth L z (MAX_ITER : ℚ) power = some (MAX_ITER : ℚ) := by
  unfold smooth
  rw [if_neg (lt_irrefl _)]
  rfl

theorem mandelbrot_of_ceiling (L : Libm) (px py : ℤ) (palette : List Color) (power : ℚ)
    (last : Color) (hlast : palette[MAX_ITER]? = some last) (hwf : last.wf) (c z : ℚ × ℚ)
    (hc : pixel_to_point px py = some c)
    (hloop : escape_loop L power c MAX_ITER (0, 0) 0 = some (z, (MAX_ITER : ℚ))) :
    mandelbrot L px py palette power = some last := by
  unfold mandelbrot
  rw [hc]
  show (escape_loop L power c MAX_ITER (0, 0) 0).bind
    (fun zi => (smooth L zi.1 zi.2 power).bind (shade palette)) = some last
  rw [hloop, Option.some_bind, smooth_at_ceiling, Option.some_bind]
  exact shade_at_ceiling palette last hlast hwf

theorem representable24_dyadic (k e : ℤ) (hk : |k| < 2 ^ 24) :
    Representable 24 ((k : ℚ) * (2 : ℚ) ^ e) :=
  ⟨k, e, hk, rfl⟩

/-- One step of `z ← z^2 + c` at the centre `c = -1/4` keeps `z` in the box
`-3/8 ≤ re ≤ 0`, `|im| ≤ 1/64`. -/
theorem centre_step_box (L : Libm) (hL : L.Lawful) (z : ℚ × ℚ)
    (h1 : -3 / 8 ≤ z.1) (h2 : z.1 ≤ 0) (h3 : |z.2| ≤ 1 / 64) :
    -3 / 8 ≤ (escape_step L 2 (-1 / 4, 0) z).1 ∧ (escape_step L 2 (-1 / 4, 0) z).1 ≤ 0
      ∧ |(escape_step L 2 (-1 / 4, 0) z).2| ≤ 1 / 64 := by
  have hp : rnd 24 2 = 2 := by decide!
  have hx1 : |z.1| ≤ 1 := by rw [abs_le]; constructor <;> linarith
  have hy1 : |z.2| ≤ 1 := by linarith
  obtain ⟨ha, hb⟩ := hL.cpowf_two z hx1 hy1
  rw [abs_le] at ha hb h3
  have hxx : z.1 * z.1 ≤ 9 / 64 := by nlinarith
  have hxx0 : 0 ≤ z.1 * z.1 := mul_self_nonneg _
  have hyy : z.2 * z.2 ≤ 1 / 4096 := by nlinarith
  have hyy0 : 0 ≤ z.2 * z.2 := mul_self_nonneg _
  have hxy : |z.1 * z.2| ≤ 3 / 512 := by
    rw [abs_mul]
    have hx' : |z.1| ≤ 3 / 8 := by rw [abs_le]; constructor <;> linarith
    have hy' : |z.2| ≤ 1 / 64 := by rw [abs_le]; exact h3
    calc |z.1| * |z.2| ≤ 3 / 8 * (1 / 64) :=
          mul_le_mul hx' hy' (abs_nonneg _) (by norm_num)
      _ = 3 / 512 := by norm_num
  rw [abs_le] at hxy
  have r38 : Representable 24 (-3 / 8 : ℚ) := by
    have := representable24_dyadic (-3) (-3) (by decide)
    have e : ((-3 : ℤ) : ℚ) * (2 : ℚ) ^ (-3 : ℤ) = -3 / 8 := by norm_num
    rwa [e] at this
  have r0 : Representable 24 (0 : ℚ) := by
    have := representable24_dyadic 0 0 (by decide)
    simpa using this
  have r64 : Representable 24 (1 / 64 : ℚ) := by
    have := representable24_dyadic 1 (-6) (by decide)
    have e : ((1 : ℤ) : ℚ) * (2 : ℚ) ^ (-6 : ℤ) = 1 / 64 := by norm_num
    rwa [e] at this
  have r64n : Representable 24 (-(1 / 64) : ℚ) := by
    have := representable24_dyadic (-1) (-6) (by decide)
    have e : ((-1 : ℤ) : ℚ) * (2 : ℚ) ^ (-6 : ℤ) = -(1 / 64) := by norm_num
    rwa [e] at this
  unfold escape_step cadd
  rw [hp]
  refine ⟨?_, ?_, ?_⟩
  · exact le_rnd_of_le 24 (by decide) _ _ r38 (by simp only; linarith)
  · exact rnd_le_of_le 24 (by decide) _ _ r0 (by simp only; linarith)
  · rw [abs_le]
    constructor
    · exact le_rnd_of_le 24 (by decide) _ _ r64n (by simp only; linarith)
    · exact rnd_le_of_le 24 (by decide) _ _ r64 (by simp only; linarith)

theorem centre_orbit_box (L : Libm) (hL : L.Lawful) :
    ∀ k : Nat, -3 / 8 ≤ ((escape_step L 2 (-1 / 4, 0))^[k] (0, 0)).1
      ∧ ((escape_step L 2 (-1 / 4, 0))^[k] (0, 0)).1 ≤ 0
      ∧ |((escape_step L 2 (-1 / 4, 0))^[k] (0, 0)).2| ≤ 1 / 64 := by
  intro k
  induction k with
  | zero => simp; norm_num
  | succ n ih =>
    rw [Function.iterate_succ_apply']
    exact centre_step_box L hL _ ih.1 ih.2.1 ih.2.2

/-- C5. For every pixel, palette and power for which the iteration reaches the
ceiling `MAX_ITER` with `cabsf(z) ≤ 20` throughout, the loop ends with count
`MAX_ITER`, the fractional count is exactly `MAX_ITER`, both palette indices are
`MAX_ITER`, the interpolation parameter is 0 and `mandelbrot` returns
`palette[MAX_ITER]`. In particular this is so at `power = 2` for the pixel
`(960, 540)` at the centre of the viewport, which maps to
`((R_MIN + R_MAX)/2, 0)`. -/
theorem mandelbrot_at_ceiling (L : Libm) (hL : L.Lawful) (palette : List Color) (last : Color)
    (hlast : palette[MAX_ITER]? = some last) (hwf : last.wf) :
    (∀ (px py : ℤ) (power : ℚ), ∃ c : ℚ × ℚ, pixel_to_point px py = some c ∧
      ((∀ k, k < MAX_ITER → L.cabsf ((escape_step L power c)^[k] (0, 0)) ≤ 20) →
        ∃ z : ℚ × ℚ, escape_loop L power c MAX_ITER (0, 0) 0 = some (z, (MAX_ITER : ℚ))
          ∧ smooth L z (MAX_ITER : ℚ) power = some (MAX_ITER : ℚ)
          ∧ palette_indices (MAX_ITER : ℚ) = some ((MAX_ITER : ℤ), (MAX_ITER : ℤ))
          ∧ dsub (MAX_ITER : ℚ) ((MAX_ITER : ℤ) : ℚ) = 0
          ∧ mandelbrot L px py palette power = some last))
    ∧ pixel_to_point 960 540 = some ((R_MIN + R_MAX) / 2, 0)
    ∧ mandelbrot L 960 540 palette 2 = some last := by
  have hgen : ∀ (px py : ℤ) (power : ℚ) (c : ℚ × ℚ), pixel_to_point px py = some c →
      (∀ k, k < MAX_ITER → L.cabsf ((escape_step L power c)^[k] (0, 0)) ≤ 20) →
      escape_loop L power c MAX_ITER (0, 0) 0
        = some ((escape_step L power c)^[MAX_ITER] (0, 0), (MAX_ITER : ℚ)) := by
    intro px py power c _ hb
    have := escape_loop_ceiling L power c MAX_ITER 0 (0, 0) (Nat.zero_add _) hb
    simpa using this
  have hcentre : pixel_to_point 960 540 = some ((R_MIN + R_MAX) / 2, 0) := by decide!
  have hcv : ((R_MIN + R_MAX) / 2 : ℚ) = -1 / 4 := by decide!
  refine ⟨?_, hcentre, ?_⟩
  · intro px py power
    refine ⟨_, pixel_to_point_eq px py, ?_⟩
    intro hb
    have hloop := hgen px py power _ (pixel_to_point_eq px py) hb
    exact ⟨_, hloop, smooth_at_ceiling L _ power, by decide!, by decide!,
      mandelbrot_of_ceiling L px py palette power last hlast hwf _ _ (pixel_to_point_eq px py)
        hloop⟩
  · have hb : ∀ k, k < MAX_ITER →
        L.cabsf ((escape_step L 2 ((R_MIN + R_MAX) / 2, 0))^[k] (0, 0)) ≤ 20 := by
      intro k _
      rw [hcv]
      obtain ⟨b1, b2, b3⟩ := centre_orbit_box L hL k
      have h := hL.cabsf_le ((escape_step L 2 (-1 / 4, 0))^[k] (0, 0))
      have h1 : |((escape_step L 2 (-1 / 4, 0))^[k] (0, 0)).1| ≤ 3 / 8 := by
        rw [abs_le]; constructor <;> linarith
      linarith
    exact mandelbrot_of_ceiling L 960 540 palette 2 last hlast hwf _ _ hcentre
      (hgen 960 540 2 _ hcentre hb)

theorem mandelbrot_at_ceiling_witness :
    (∀ (px py : ℤ) (power : ℚ), ∃ c : ℚ × ℚ, pixel_to_point px py = some c ∧
      ((∀ k, k < MAX_ITER → sampleLibm.cabsf ((escape_step sampleLibm power c)^[k] (0, 0)) ≤ 20) →
        ∃ z : ℚ × ℚ, escape_loop sampleLibm power c MAX_ITER (0, 0) 0
            = some (z, (MAX_ITER : ℚ))
          ∧ smooth sampleLibm z (MAX_ITER : ℚ) power = some (MAX_ITER : ℚ)
          ∧ palette_indices (MAX_ITER : ℚ) = some ((MAX_ITER : ℤ), (MAX_ITER : ℤ))
          ∧ dsub (MAX_ITER : ℚ) ((MAX_ITER : ℤ) : ℚ) = 0
          ∧ mandelbrot sampleLibm px py sample_palette power
              = some { r := 0, g := 0, b := 0 }))
    ∧ pixel_to_point 960 540 = some ((R_MIN + R_MAX) / 2, 0)
    ∧ mandelbrot sampleLibm 960 540 sample_palette 2 = some { r := 0, g := 0, b := 0 } :=
  mandelbrot_at_ceiling sampleLibm sampleLibm_lawful sample_palette { r := 0, g := 0, b := 0 }
    (by
      unfold sample_palette
      rw [List.getElem?_append_right (by simp)]
      simp)
    ⟨by decide, by decide, by decide⟩

/-! ## Pixels whose point lies outside the escape radius -/

theorem escape_loop_succ (L : Libm) (power : ℚ) (c : ℚ × ℚ) (fuel : Nat) (z : ℚ × ℚ) (i : ℚ) :
    escape_loop L power c (fuel + 1) z i
      = if L.cabsf z ≤ 20 ∧ i < MAX_ITER then
          escape_loop L power c fuel (escape_step L power c z) (dadd i 1)
        else some (z, i) := rfl

/-- The escape loop exits within `MAX_ITER` passes: with fuel `MAX_ITER` it
returns a state, whose count is an integer between the initial count and
`MAX_ITER`, and when the count is below `MAX_ITER` the exit was by
`cabsf(z) > 20`. -/
theorem escape_loop_total (L : Libm) (power : ℚ) (c : ℚ × ℚ) :
    ∀ (fuel k : Nat) (z : ℚ × ℚ), k + fuel = MAX_ITER →
      ∃ (z' : ℚ × ℚ) (n : Nat), escape_loop L power c fuel z (k : ℚ) = some (z', (n : ℚ))
        ∧ k ≤ n ∧ n ≤ MAX_ITER ∧ (n < MAX_ITER → 20 < L.cabsf z') := by
  intro fuel
  induction fuel with
  | zero =>
    intro k z hk
    have hk' : k = MAX_ITER := by omega
    refine ⟨z, k, ?_, le_refl _, by omega, by omega⟩
    unfold escape_loop
    rw [if_neg]
    rintro ⟨_, h⟩
    rw [hk'] at h
    exact lt_irrefl _ h
  | succ f ih =>
    intro k z hk
    have hkN : k < MAX_ITER := by omega
    have hlt : (k : ℚ) < (MAX_ITER : ℚ) := by exact_mod_cast hkN
    have hk52 : k < 2 ^ 52 := by
      unfold MAX_ITER at hkN
      omega
    rw [escape_loop_succ]
    by_cases hz : L.cabsf z ≤ 20
    · rw [if_pos ⟨hz, hlt⟩, dadd_nat_one k hk52]
      obtain ⟨z', n, h1, h2, h3, h4⟩ := ih (k + 1) (escape_step L power c z) (by omega)
      exact ⟨z', n, h1, by omega, h3, h4⟩
    · rw [if_neg (fun h => hz h.1)]
      exact ⟨z, k, rfl, le_refl _, by omega, fun _ => not_le.mp hz⟩

/-! ## The fractional count and the palette indices -/

theorem dlog_of_pos (L : Libm) (x : ℚ) (hx : 0 < x) : dlog L x = some (L.log x) := by
  unfold dlog
  rw [if_pos hx]

theorem ddiv_of_ne_zero (a b : ℚ) (hb : b ≠ 0) : ddiv a b = some (rnd 53 (a / b)) := by
  unfold ddiv
  rw [if_neg hb]

theorem log_one_eq_zero (L : Libm) (hL : L.Lawful) : L.log 1 = 0 := by
  have h1 := hL.log_le 1 (by norm_num)
  have h2 := hL.le_log 1 (by norm_num)
  norm_num at h1 h2
  exact le_antisymm h1 h2

/-- C10, counterexample. For the ceiling `N = 2` and the index `i = 1` the ramp
parameter is `3*(log(1)/log(1))`, a division by zero: no value of `j` results,
for the sample library and for every lawful library, and the entry is not
defined. -/
theorem ramp_undefined_cex :
    ramp_j sampleLibm 2 1 = none ∧ palette_entry sampleLibm 2 1 = none
      ∧ ¬ ∃ L : Libm, L.Lawful ∧ ∃ j : ℚ, ramp_j L 2 1 = some j := by
  refine ⟨by decide!, by decide!, ?_⟩
  rintro ⟨L, hL, j, hj⟩
  have h1 : dsub ((2 : ℤ) : ℚ) 1 = 1 := by decide!
  have h2 : dlog L (((1 : ℤ) : ℚ)) = some 0 := by
    rw [dlog_of_pos L _ (by norm_num)]
    simp [log_one_eq_zero L hL]
  have h3 : dlog L 1 = some 0 := by
    rw [dlog_of_pos L _ (by norm_num), log_one_eq_zero L hL]
  unfold ramp_j at hj
  rw [if_neg (by norm_num), h1, h2, h3] at hj
  simp [ddiv] at hj

theorem representable53_nat (n : Nat) (hn : n < 2 ^ 53) : Representable 53 (n : ℚ) := by
  have := representable_int 53 (n : ℤ)
    (by rw [abs_of_nonneg (Int.natCast_nonneg n)]; exact_mod_cast hn)
  simpa using this

/-- A `double` in `[0, 255]` converts to a byte. -/
theorem double_to_uchar_some (x : ℚ) (h0 : 0 ≤ x) (h1 : x ≤ 255) :
    ∃ n : Nat, double_to_uchar x = some n ∧ n < 256 := by
  have ht : trunc x = ⌊x⌋ := by unfold trunc; rw [if_pos h0]
  have hf0 : 0 ≤ ⌊x⌋ := Int.floor_nonneg.mpr h0
  have hf1 : ⌊x⌋ < 256 := by
    rw [Int.floor_lt]
    push_cast
    linarith
  refine ⟨⌊x⌋.toNat, ?_, by omega⟩
  unfold double_to_uchar
  rw [ht, if_pos ⟨hf0, hf1⟩]

/-- The product `255 * t` for `t` in `[0, 1]` converts to a byte. -/
theorem channel_some (t : ℚ) (h0 : 0 ≤ t) (h1 : t ≤ 1) :
    ∃ n : Nat, double_to_uchar (dmul 255 t) = some n ∧ n < 256 := by
  have r0 : Representable 53 (0 : ℚ) := by simpa using representable53_nat 0 (by norm_num)
  have r255 : Representable 53 (255 : ℚ) := by simpa using representable53_nat 255 (by norm_num)
  apply double_to_uchar_some
  · unfold dmul
    exact le_rnd_of_le 53 (by decide) _ _ r0 (by positivity)
  · unfold dmul
    exact rnd_le_of_le 53 (by decide) _ _ r255 (by linarith)

/-- For a ceiling above 2 the ramp parameter of an entry below the ceiling is
defined and lies in `[0, 3]`. -/
theorem ramp_j_some (L : Libm) (hL : L.Lawful) (N i : Nat) (hN : 2 < N) (hN31 : N < 2 ^ 31)
    (hi : i < N) : ∃ j : ℚ, ramp_j L (N : ℤ) (i : ℤ) = some j ∧ 0 ≤ j ∧ j ≤ 3 := by
  have r0 : Representable 53 (0 : ℚ) := by simpa using representable53_nat 0 (by norm_num)
  have r1 : Representable 53 (1 : ℚ) := by simpa using representable53_nat 1 (by norm_num)
  have r3 : Representable 53 (3 : ℚ) := by simpa using representable53_nat 3 (by norm_num)
  by_cases hi0 : i = 0
  · subst hi0
    exact ⟨3, by simp [ramp_j], by norm_num, le_refl _⟩
  have hi1 : (1 : ℚ) ≤ (i : ℚ) := by exact_mod_cast Nat.one_le_iff_ne_zero.mpr hi0
  have hiN : (i : ℚ) ≤ (N : ℚ) - 1 := by
    have : i + 1 ≤ N := hi
    have : ((i + 1 : ℕ) : ℚ) ≤ (N : ℚ) := by exact_mod_cast this
    push_cast at this
    linarith
  have hN2 : (2 : ℚ) ≤ (N : ℚ) - 1 := by
    have : 3 ≤ N := hN
    have : ((3 : ℕ) : ℚ) ≤ (N : ℚ) := by exact_mod_cast this
    push_cast at this
    linarith
  have hsub : dsub ((N : ℤ) : ℚ) 1 = (N : ℚ) - 1 := by
    unfold dsub
    have hr : Representable 53 (((N - 1 : ℕ) : ℚ)) := representable53_nat (N - 1) (by omega)
    have hc : ((N - 1 : ℕ) : ℚ) = (N : ℚ) - 1 := by
      rw [Nat.cast_sub (by omega)]; simp
    rw [hc] at hr
    have := rnd_of_representable 53 (by decide) _ hr
    simpa using this
  have ha0 : 0 ≤ L.log i := by
    have := hL.le_log i (by linarith)
    have h1 : (1 : ℚ) / i ≤ 1 := by
      rw [div_le_iff₀ (by linarith)]; linarith
    linarith
  have hb : 1 / 2 ≤ L.log ((N : ℚ) - 1) := by
    have := hL.le_log ((N : ℚ) - 1) (by linarith)
    have h1 : (1 : ℚ) / ((N : ℚ) - 1) ≤ 1 / 2 := by
      rw [div_le_div_iff₀ (by linarith) (by norm_num)]; linarith
    linarith
  have hbpos : 0 < L.log ((N : ℚ) - 1) := by linarith
  have hab : L.log i ≤ L.log ((N : ℚ) - 1) := hL.log_mono _ _ (by linarith) hiN
  have hq0 : 0 ≤ rnd 53 (L.log i / L.log ((N : ℚ) - 1)) :=
    le_rnd_of_le 53 (by decide) _ _ r0 (div_nonneg ha0 hbpos.le)
  have hq1 : rnd 53 (L.log i / L.log ((N : ℚ) - 1)) ≤ 1 :=
    rnd_le_of_le 53 (by decide) _ _ r1 (by rw [div_le_iff₀ hbpos]; linarith)
  refine ⟨dmul 3 (rnd 53 (L.log i / L.log ((N : ℚ) - 1))), ?_, ?_, ?_⟩
  · unfold ramp_j
    rw [if_neg (by exact_mod_cast hi0), hsub]
    have e1 : (((i : ℤ)) : ℚ) = (i : ℚ) := by simp
    rw [e1, dlog_of_pos L _ (by linarith), dlog_of_pos L _ (by linarith)]
    simp only [Option.bind_eq_bind, Option.some_bind]
    rw [ddiv_of_ne_zero _ _ (ne_of_gt hbpos)]
    rfl
  · unfold dmul
    exact le_rnd_of_le 53 (by decide) _ _ r0 (by positivity)
  · unfold dmul
    exact rnd_le_of_le 53 (by decide) _ _ r3 (by linarith)

/-- C10, amended. For every ceiling `N > 2` (a positive `int`) and every index
`i` with `0 ≤ i ≤ N-1`, the ramp parameter `j` of `make_palette` is defined, with
a non-zero divisor, and satisfies `0 ≤ j ≤ 3`; the entry is defined and each of
its channels lies in `0..255`. -/
theorem palette_ramp_in_range (L : Libm) (hL : L.Lawful) (N i : Nat) (hN : 2 < N)
    (hN31 : N < 2 ^ 31) (hi : i < N) :
    ∃ j : ℚ, ramp_j L (N : ℤ) (i : ℤ) = some j ∧ 0 ≤ j ∧ j ≤ 3
      ∧ ∃ c : Color, palette_entry L (N : ℤ) (i : ℤ) = some c ∧ c.wf := by
  have r0 : Representable 53 (0 : ℚ) := by simpa using representable53_nat 0 (by norm_num)
  have r1 : Representable 53 (1 : ℚ) := by simpa using representable53_nat 1 (by norm_num)
  obtain ⟨j, hj, hj0, hj3⟩ := ramp_j_some L hL N i hN hN31 hi
  refine ⟨j, hj, hj0, hj3, ?_⟩
  have hlt : ¬ ((i : ℤ) ≥ (N : ℤ)) := by omega
  unfold palette_entry
  rw [if_neg hlt, hj]
  simp only [Option.bind_eq_bind, Option.some_bind]
  by_cases h1 : j < 1
  · rw [if_pos h1]
    obtain ⟨n, hn, hn256⟩ := channel_some j hj0 h1.le
    rw [hn]
    exact ⟨_, rfl, by norm_num, hn256, by norm_num⟩
  · rw [if_neg h1]
    by_cases h2 : j < 2
    · rw [if_pos h2]
      have hd0 : 0 ≤ dsub j 1 := by
        unfold dsub; exact le_rnd_of_le 53 (by decide) _ _ r0 (by linarith [not_lt.mp h1])
      have hd1 : dsub j 1 ≤ 1 := by
        unfold dsub; exact rnd_le_of_le 53 (by decide) _ _ r1 (by linarith)
      obtain ⟨n, hn, hn256⟩ := channel_some _ hd0 hd1
      rw [hn]
      exact ⟨_, rfl, hn256, by norm_num, by norm_num⟩
    · rw [if_neg h2]
      have hd0 : 0 ≤ dsub j 2 := by
        unfold dsub; exact le_rnd_of_le 53 (by decide) _ _ r0 (by linarith [not_lt.mp h2])
      have hd1 : dsub j 2 ≤ 1 := by
        unfold dsub; exact rnd_le_of_le 53 (by decide) _ _ r1 (by linarith)
      obtain ⟨n, hn, hn256⟩ := channel_some _ hd0 hd1
      rw [hn]
      exact ⟨_, rfl, hn256, by norm_num, by norm_num⟩

theorem palette_ramp_in_range_witness :
    ∃ j : ℚ, ramp_j sampleLibm ((MAX_ITER : ℕ) : ℤ) ((17 : ℕ) : ℤ) = some j ∧ 0 ≤ j ∧ j ≤ 3
      ∧ ∃ c : Color, palette_entry sampleLibm ((MAX_ITER : ℕ) : ℤ) ((17 : ℕ) : ℤ) = some c
          ∧ c.wf :=
  palette_ramp_in_range sampleLibm sampleLibm_lawful MAX_ITER 17 (by decide) (by decide)
    (by decide)

end Multibrot
